import Mathlib

/-!
Verification of the path-addressed JSON mutation and multi-store
synchronization core of the jsoncrack editor fragment.

The embedding translates the functions of
`src/features/modals/NodeModal/index.tsx` (`readValueAtPath`,
`writeJsonAtPath`, `coerceInputValue`, `commitEdit`) and of the editor page
(`setAtPath`, `handleNodeSave`) into Lean over an explicit JSON value type.

Modelling conventions, chosen once and used consistently:

* `JValue.undef` models the JavaScript value `undefined`: the result of a
  missed property read, and a hole in a sparse array (created by assigning
  past the end of an array).  It is distinct from `JValue.null` (JSON
  `null`), exactly as in JavaScript.
* JSON numbers are modelled as integers (`Int`).  The documents and edits
  the specification exercises only contain integral numbers; fractional
  and exponent syntax is out of the model (the parser rejects it).
* Property access follows the JSON data model: reading any segment off a
  scalar (null, boolean, number, string) yields `undef`; reading a string
  segment off an array yields `undef`, and assigning a string segment on an
  array is dropped (in JavaScript such an assignment creates a non-index
  property that `JSON.stringify` discards, so the serialized observable
  behaviour agrees).  A numeric segment on an object is coerced to its
  decimal string key, as JavaScript does.
* Mutable in-place updates of freshly parsed (hence tree-shaped, unaliased)
  values are modelled as functional path updates; a thrown `TypeError`
  (reading a property of `null`/`undefined`, assigning a property of a
  primitive in strict mode) is modelled as `Option.none`.
* `JSON.parse` / `JSON.stringify(v, null, 2)` are modelled by an executable
  recursive-descent parser and a two-space pretty printer.  The printer
  escapes the characters `JSON.stringify` escapes without `\u` notation;
  strings containing other control characters (below space) are outside the
  model, matching the `wfS` well-formedness predicate.
-/

set_option maxRecDepth 20000

namespace JCrack

/-- The left and right curly bracket characters, named once. -/
def lbk : Char := Char.ofNat 123

/-- Right curly bracket. -/
def rbk : Char := Char.ofNat 125

/-- A JavaScript runtime value as far as the JSON editor core is concerned:
the JSON value grammar plus `undef` for `undefined` (missed reads, sparse
array holes). -/
inductive JValue where
  | undef
  | null
  | bool (b : Bool)
  | num (n : Int)
  | str (s : String)
  | arr (elems : List JValue)
  | obj (mems : List (String × JValue))
deriving Repr, Inhabited

mutual

/-- Structural boolean equality on values (the derive handler does not
support this nested inductive, so it is written out). -/
def beqJ : JValue → JValue → Bool
  | .undef, .undef => true
  | .null, .null => true
  | .bool a, .bool b => a == b
  | .num a, .num b => a == b
  | .str a, .str b => a == b
  | .arr a, .arr b => beqL a b
  | .obj a, .obj b => beqM a b
  | _, _ => false

/-- Elementwise `beqJ` on lists of values. -/
def beqL : List JValue → List JValue → Bool
  | [], [] => true
  | a :: as, b :: bs => beqJ a b && beqL as bs
  | _, _ => false

/-- Entrywise `beqJ` on member lists. -/
def beqM : List (String × JValue) → List (String × JValue) → Bool
  | [], [] => true
  | (k, v) :: as, (k2, v2) :: bs => k == k2 && beqJ v v2 && beqM as bs
  | _, _ => false

end

mutual

theorem beqJ_iff : ∀ a b : JValue, beqJ a b = true ↔ a = b
  | .undef, b => by cases b <;> simp [beqJ]
  | .null, b => by cases b <;> simp [beqJ]
  | .bool x, b => by cases b <;> simp [beqJ]
  | .num x, b => by cases b <;> simp [beqJ]
  | .str x, b => by cases b <;> simp [beqJ]
  | .arr xs, b => by
      cases b <;> simp [beqJ]
      exact beqL_iff xs _
  | .obj xs, b => by
      cases b <;> simp [beqJ]
      exact beqM_iff xs _

theorem beqL_iff : ∀ a b : List JValue, beqL a b = true ↔ a = b
  | [], b => by cases b <;> simp [beqL]
  | x :: xs, b => by
      cases b with
      | nil => simp [beqL]
      | cons y ys => simp [beqL, beqJ_iff x y, beqL_iff xs ys]

theorem beqM_iff : ∀ a b : List (String × JValue), beqM a b = true ↔ a = b
  | [], b => by cases b <;> simp [beqM]
  | (k, v) :: xs, b => by
      cases b with
      | nil => simp [beqM]
      | cons y ys =>
          obtain ⟨k2, v2⟩ := y
          simp [beqM, beqJ_iff v v2, beqM_iff xs ys, and_assoc]

end

instance : DecidableEq JValue := fun a b =>
  decidable_of_iff (beqJ a b = true) (beqJ_iff a b)

/-- A path segment: an object key or an array index (`NodeData["path"]`
holds strings and numbers). -/
inductive Seg where
  | key (s : String)
  | idx (n : Nat)
deriving Repr, DecidableEq, Inhabited

/-- Decimal digit characters of a natural number, most significant first,
structurally recursive on a fuel bound so that it evaluates by kernel
reduction (`n` itself always suffices as fuel, since `n / 10 < n`). -/
def natCharsF : Nat → Nat → List Char
  | _, 0 => ['0']
  | 0, _ + 1 => ['0']
  | fuel + 1, n + 1 =>
      if n + 1 < 10 then [Char.ofNat (48 + (n + 1))]
      else natCharsF fuel ((n + 1) / 10) ++ [Char.ofNat (48 + (n + 1) % 10)]

/-- Decimal digit characters of a natural number, most significant first. -/
def natChars (n : Nat) : List Char := natCharsF n n

/-- The JavaScript property key a segment denotes on an object: numbers are
coerced to their decimal string. -/
def Seg.pkey : Seg → String
  | .key s => s
  | .idx n => String.mk (natChars n)

/-- Is the value an array or an object (`typeof x === "object" && x` plus
`Array.isArray`, the container test)? -/
def JValue.isContainer : JValue → Bool
  | .arr _ => true
  | .obj _ => true
  | _ => false

/-- Association-list lookup by key, first match (JavaScript objects have
unique keys, and every operation below preserves that). -/
def findKey : List (String × JValue) → String → Option JValue
  | [], _ => none
  | (k, v) :: rest, key => if k = key then some v else findKey rest key

/-- JavaScript property assignment on an object: an existing key keeps its
position and receives the new value, a fresh key is appended. -/
def setKey : List (String × JValue) → String → JValue → List (String × JValue)
  | [], key, v => [(key, v)]
  | (k, w) :: rest, key, v =>
      if k = key then (k, v) :: rest else (k, w) :: setKey rest key v

/-- JavaScript array index assignment `a[n] = v`: in range it replaces the
element, past the end it pads with holes (`undef`) and appends. -/
def setPad : List JValue → Nat → JValue → List JValue
  | [], 0, v => [v]
  | [], n + 1, v => .undef :: setPad [] n v
  | _ :: rest, 0, v => v :: rest
  | e :: rest, n + 1, v => e :: setPad rest n v

/-- A JavaScript optional-chained property read `cur?.[seg]`: never throws,
yields `undef` on `null`/`undefined`, on scalars, and on absent keys.  A
hole read from an array is `undef`. -/
def jsGet : JValue → Seg → JValue
  | .arr es, .idx n => es.getD n .undef
  | .arr _, .key _ => .undef
  | .obj ms, s => (findKey ms s.pkey).getD .undef
  | _, _ => (.undef)

/-- The read loop of `readValueAtPath`: `for (i...) current = current?.[path[i]]`.
The empty path returns the root itself. -/
def walk (root : JValue) (path : List Seg) : JValue :=
  path.foldl jsGet root

/-- The empty container `setAtPath` heals a missing level with: an array for
a numeric segment, an object otherwise. -/
def Seg.fresh : Seg → JValue
  | .idx _ => .arr []
  | .key _ => .obj []

/-- Assignment `cloned[head] = v` on a value known to be a container.  On an
array with a string segment the write creates a non-index property that
serialization discards, so it is modelled as a no-op; on a non-container
(unreachable from `setAtPath`) it is also a no-op. -/
def assignC : JValue → Seg → JValue → JValue
  | .arr es, .idx n, v => .arr (setPad es n v)
  | .arr es, .key _, _ => .arr es
  | .obj ms, s, v => .obj (setKey ms s.pkey v)
  | cur, _, _ => cur

/-- The clone step of `setAtPath`: a shallow copy of the current container,
or a fresh empty one (chosen by the head segment) when the current value is
absent/null/not a container. -/
def cloneHeal (root : JValue) (head : Seg) : JValue :=
  match root with
  | .arr es => .arr es
  | .obj ms => .obj ms
  | _ => head.fresh

/-- `setAtPath` from the editor page (`src/unnamed/part_000`): copy-on-write
path update.  Clones the current container (healing missing levels),
assigns at the head segment, recursing on the remaining path. -/
def setAtPath : JValue → List Seg → JValue → JValue
  | _, [], v => v
  | root, [head], v => assignC (cloneHeal root head) head v
  | root, head :: s :: rest, v =>
      assignC (cloneHeal root head) head
        (setAtPath (jsGet (cloneHeal root head) head) (s :: rest) v)

/-- Strict (non-optional) property assignment `cur[seg] = v` as used by
`writeJsonAtPath`: throws (`none`) on `null`/`undefined` and on primitives
(strict-mode `TypeError`); on containers it behaves like `assignC`. -/
def assignS : JValue → Seg → JValue → Option JValue
  | .arr es, .idx n, v => some (.arr (setPad es n v))
  | .arr es, .key _, _ => some (.arr es)
  | .obj ms, s, v => some (.obj (setKey ms s.pkey v))
  | _, _, _ => none

/-- The in-place mutation loop of `writeJsonAtPath`, as a functional path
update on the freshly parsed (tree-shaped) value: walk the leading segments
with plain reads (`current = current[path[i]]`, throwing on `null`/`undef`),
then assign at the last segment.  `none` models a thrown `TypeError`, in
which case the original value is untouched (reads do not mutate and the
single assignment is last). -/
def mutateAt : JValue → List Seg → JValue → Option JValue
  | _, [], _ => none
  | cur, [last], v => assignS cur last v
  | cur, s :: rest :: more, v =>
      match cur with
      | .undef => none
      | .null => none
      | _ =>
          (mutateAt (jsGet cur s) (rest :: more) v).bind fun sub => assignS cur s sub

/-! ### JSON text: parser (`JSON.parse`) and printer (`JSON.stringify(v, null, 2)`) -/

/-- JSON whitespace. -/
def isWsC (c : Char) : Bool := c == ' ' || c == '\n' || c == '\t' || c == '\r'

/-- Decimal digit test. -/
def isDigitC (c : Char) : Bool := '0' ≤ c && c ≤ '9'

/-- Drop leading JSON whitespace. -/
def skipWs : List Char → List Char
  | c :: cs => if isWsC c then skipWs cs else c :: cs
  | [] => []

/-- Split off the leading run of decimal digits. -/
def spanDigits : List Char → List Char × List Char
  | c :: cs =>
      if isDigitC c then
        let (ds, r) := spanDigits cs
        (c :: ds, r)
      else ([], c :: cs)
  | [] => ([], [])

/-- Numeric value of a digit run. -/
def digitsToNat (ds : List Char) : Nat :=
  ds.foldl (fun acc c => acc * 10 + (c.toNat - 48)) 0

/-- Undo one string escape (`\u` sequences are outside the model). -/
def unescC : Char → Option Char
  | 'n' => some '\n'
  | 't' => some '\t'
  | 'r' => some '\r'
  | 'b' => some (Char.ofNat 8)
  | 'f' => some (Char.ofNat 12)
  | '"' => some '"'
  | '\\' => some '\\'
  | '/' => some '/'
  | _ => none

/-- Parse the body of a string literal after the opening quote.  Raw control
characters below space are rejected, as `JSON.parse` rejects them. -/
def parseStrChars : List Char → Option (List Char × List Char)
  | '\\' :: e :: r1 =>
      (match unescC e with
       | some u => (parseStrChars r1).map fun lr => (u :: lr.1, lr.2)
       | none => none)
  | '"' :: r => some ([], r)
  | c :: r =>
      if 32 ≤ c.toNat then (parseStrChars r).map fun lr => (c :: lr.1, lr.2)
      else none
  | [] => none

/-- Parse an unsigned integer literal, rejecting a leading zero followed by
more digits (as JSON does). -/
def parseNatChars (cs : List Char) : Option (Nat × List Char) :=
  match spanDigits cs with
  | ([], _) => none
  | (d :: ds, r) =>
      if d = '0' ∧ ds ≠ [] then none else some (digitsToNat (d :: ds), r)

/-- Collapse duplicate member keys the way JavaScript object construction
does: each later entry assigns over the earlier ones, so the first position
is kept and the last value wins. -/
def dedupMems (ms : List (String × JValue)) : List (String × JValue) :=
  ms.foldl (fun acc kv => setKey acc kv.1 kv.2) []

mutual

/-- Recursive-descent value parser, fueled for totality (model of
`JSON.parse`; fractional/exponent number syntax is out of the model). -/
def parseVal : Nat → List Char → Option (JValue × List Char)
  | 0, _ => none
  | f + 1, cs =>
      match skipWs cs with
      | 'n' :: 'u' :: 'l' :: 'l' :: r => some (.null, r)
      | 't' :: 'r' :: 'u' :: 'e' :: r => some (.bool true, r)
      | 'f' :: 'a' :: 'l' :: 's' :: 'e' :: r => some (.bool false, r)
      | '"' :: r =>
          match parseStrChars r with
          | some (l, r1) => some (.str (String.mk l), r1)
          | none => none
      | '[' :: r =>
          (match skipWs r with
           | ']' :: r1 => some (.arr [], r1)
           | _ =>
              match parseElems f r with
              | some (es, r1) => some (.arr es, r1)
              | none => none)
      | '-' :: r =>
          (match parseNatChars r with
           | some (n, r1) => some (.num (-(n : Int)), r1)
           | none => none)
      | c :: r =>
          if c = lbk then
            match skipWs r with
            | c1 :: r1 =>
                if c1 = rbk then some (.obj [], r1)
                else
                  match parseMems f (c1 :: r1) with
                  | some (ms, r2) => some (.obj (dedupMems ms), r2)
                  | none => none
            | [] => none
          else if isDigitC c then
            match parseNatChars (c :: r) with
            | some (n, r1) => some (.num (n : Int), r1)
            | none => none
          else none
      | [] => none

/-- One-or-more comma-separated array elements, then the closing bracket. -/
def parseElems : Nat → List Char → Option (List JValue × List Char)
  | 0, _ => none
  | f + 1, cs =>
      match parseVal f cs with
      | none => none
      | some (v, r) =>
          match skipWs r with
          | ',' :: r1 =>
              (match parseElems f r1 with
               | some (vs, r2) => some (v :: vs, r2)
               | none => none)
          | ']' :: r1 => some ([v], r1)
          | _ => none

/-- One-or-more comma-separated object members, then the closing bracket,
in source order (the object branch of `parseVal` collapses duplicates). -/
def parseMems : Nat → List Char → Option (List (String × JValue) × List Char)
  | 0, _ => none
  | f + 1, cs =>
      match skipWs cs with
      | '"' :: r =>
          match parseStrChars r with
          | none => none
          | some (kl, r1) =>
              match skipWs r1 with
              | ':' :: r2 =>
                  (match parseVal f r2 with
                   | none => none
                   | some (v, r3) =>
                      match skipWs r3 with
                      | ',' :: r4 =>
                          (match parseMems f r4 with
                           | some (ms, r5) => some ((String.mk kl, v) :: ms, r5)
                           | none => none)
                      | c :: r4 =>
                          if c = rbk then some ([(String.mk kl, v)], r4) else none
                      | [] => none)
              | _ => none
      | _ => none

end

/-- The model of `JSON.parse`: parse one value, require only whitespace
after it.  The fuel exceeds what any input can consume. -/
def parse (s : String) : Option JValue :=
  match parseVal (s.length + 1) s.toList with
  | some (v, r) => if skipWs r = [] then some v else none
  | none => none

/-- `n` space characters. -/
def spL (n : Nat) : List Char := List.replicate n ' '

/-- Escape one string character the way `JSON.stringify` does (characters
needing `\u` notation are outside the model, see `wfS`). -/
def escC (c : Char) : List Char :=
  if c = '"' then ['\\', '"']
  else if c = '\\' then ['\\', '\\']
  else if c = '\n' then ['\\', 'n']
  else if c = '\t' then ['\\', 't']
  else if c = '\r' then ['\\', 'r']
  else if c = Char.ofNat 8 then ['\\', 'b']
  else if c = Char.ofNat 12 then ['\\', 'f']
  else [c]

/-- Escape a whole character list. -/
def escL : List Char → List Char
  | [] => []
  | c :: r => escC c ++ escL r

/-- A quoted, escaped string literal. -/
def quoteL (s : String) : List Char := '"' :: (escL s.toList ++ ['"'])

/-- Characters of an integer: optional minus sign, then digits. -/
def intChars (i : Int) : List Char :=
  if i < 0 then '-' :: natChars i.natAbs else natChars i.natAbs

mutual

/-- Pretty printing at nesting depth `k`, the layout of
`JSON.stringify(v, null, 2)`: children on their own lines at two more
spaces of indent, `": "` after keys, empty containers inline.  A hole
(`undef`) prints as `null`, as stringify serializes sparse array slots. -/
def ppL (k : Nat) : JValue → List Char
  | .undef => 'n' :: ['u', 'l', 'l']
  | .null => 'n' :: ['u', 'l', 'l']
  | .bool true => 't' :: ['r', 'u', 'e']
  | .bool false => 'f' :: ['a', 'l', 's', 'e']
  | .num n => intChars n
  | .str s => quoteL s
  | .arr [] => ['[', ']']
  | .arr (e :: es) =>
      '[' :: '\n' :: (ppElemsL k (e :: es) ++ '\n' :: (spL (2 * k) ++ [']']))
  | .obj [] => [lbk, rbk]
  | .obj (m :: ms) =>
      lbk :: '\n' :: (ppMemsL k (m :: ms) ++ '\n' :: (spL (2 * k) ++ [rbk]))

/-- The element lines of an array body, comma-newline separated. -/
def ppElemsL (k : Nat) : List JValue → List Char
  | [] => []
  | [e] => spL (2 * k + 2) ++ ppL (k + 1) e
  | e :: e2 :: rest =>
      spL (2 * k + 2) ++ ppL (k + 1) e ++ ',' :: '\n' :: ppElemsL k (e2 :: rest)

/-- The member lines of an object body, comma-newline separated. -/
def ppMemsL (k : Nat) : List (String × JValue) → List Char
  | [] => []
  | [(key, v)] => spL (2 * k + 2) ++ quoteL key ++ ':' :: ' ' :: ppL (k + 1) v
  | (key, v) :: m2 :: rest =>
      spL (2 * k + 2) ++ quoteL key ++ ':' :: ' ' :: ppL (k + 1) v
        ++ ',' :: '\n' :: ppMemsL k (m2 :: rest)

end

/-- The model of `JSON.stringify(v, null, 2)`. -/
def stringify (v : JValue) : String := String.mk (ppL 0 v)

mutual

/-- What serializing and reparsing makes of a value: array holes become
`null` (and a top-level `undef`, which the commit path never serializes,
is also read back as `null`). -/
def scrub : JValue → JValue
  | .undef => .null
  | .arr es => .arr (scrubL es)
  | .obj ms => .obj (scrubM ms)
  | v => v

/-- `scrub` on array elements. -/
def scrubL : List JValue → List JValue
  | [] => []
  | e :: es => scrub e :: scrubL es

/-- `scrub` on object members. -/
def scrubM : List (String × JValue) → List (String × JValue)
  | [] => []
  | (k, v) :: ms => (k, scrub v) :: scrubM ms

end

/-- A character within the printable model: at least the space character,
or one of the escapable controls. -/
def okChar (c : Char) : Prop :=
  32 ≤ c.toNat ∨ c = '\n' ∨ c = '\t' ∨ c = '\r' ∨ c = Char.ofNat 8 ∨ c = Char.ofNat 12

instance (c : Char) : Decidable (okChar c) :=
  inferInstanceAs (Decidable (32 ≤ c.toNat ∨ c = '\n' ∨ c = '\t' ∨ c = '\r' ∨
    c = Char.ofNat 8 ∨ c = Char.ofNat 12))

/-- A string within the printable model. -/
def wfStr (s : String) : Bool :=
  s.toList.all fun c => decide (okChar c)

/-- Is the value the JavaScript `undefined`? -/
def isUndef : JValue → Bool
  | .undef => true
  | _ => false

mutual

/-- Well-formed values: strings (and keys) printable, object member lists
duplicate-free with no `undef` member values — the invariants JavaScript
objects and `JSON.parse` maintain.  Array holes are allowed. -/
def wfS : JValue → Bool
  | .str s => wfStr s
  | .arr es => wfSL es
  | .obj ms => wfSM ms && (ms.map Prod.fst).Nodup
  | _ => true

/-- `wfS` on array elements. -/
def wfSL : List JValue → Bool
  | [] => true
  | e :: es => wfS e && wfSL es

/-- `wfS` on object members: keys printable, values defined and
well-formed. -/
def wfSM : List (String × JValue) → Bool
  | [] => true
  | (k, v) :: ms => wfStr k && !isUndef v && wfS v && wfSM ms

end

/-! ### The source functions of `NodeModal/index.tsx` and the page handler -/

/-- `readValueAtPath(json, path)`: parse, then walk the path with
optional-chained reads; a parse failure is caught and yields `null`.  A
missed path yields `undef` (JavaScript `undefined`). -/
def readValueAtPath (json : String) (path : List Seg) : JValue :=
  match parse json with
  | none => .null
  | some obj => walk obj path

/-- `writeJsonAtPath(json, path, newValue)`: parse, mutate in place at the
path, reserialize.  An empty path replaces the whole document.  Any
caught failure (parse error, or a `TypeError` from the traversal or the
final assignment) returns the input text unchanged. -/
def writeJsonAtPath (json : String) (path : List Seg) (newValue : JValue) : String :=
  match parse json with
  | none => json
  | some obj =>
      match path with
      | [] => stringify newValue
      | _ :: _ =>
          match mutateAt obj path newValue with
          | some r => stringify r
          | none => json

/-- Drop leading whitespace characters. -/
def dropWsL : List Char → List Char
  | c :: cs => if isWsC c then dropWsL cs else c :: cs
  | [] => []

/-- The model of JavaScript `String.prototype.trim`: strip whitespace from
both ends. -/
def jsTrim (s : String) : String :=
  String.mk ((dropWsL ((dropWsL s.toList.reverse).reverse)))

/-- `coerceInputValue(content)`: blank input becomes the empty string,
JSON-parsable trimmed input becomes the parsed value, anything else is the
raw text as a string. -/
def coerceInputValue (content : String) : JValue :=
  if jsTrim content = "" then .str ""
  else
    match parse (jsTrim content) with
    | some v => v
    | none => .str content

/-- The shallow-merge policy of `commitEdit`: both sides plain objects
(not arrays, not null, not undefined) merge spread-style
`{...originalFull, ...newValue}`; anything else is a full replace. -/
def mergePolicy (originalFull newValue : JValue) : JValue :=
  match originalFull, newValue with
  | .obj oms, .obj pms => .obj (pms.foldl (fun acc kv => setKey acc kv.1 kv.2) oms)
  | _, _ => newValue

/-- The last value pushed to the graph store: `setGraph` receives the
parsed document, or the raw text as a fallback when reparsing the
serialized result fails. -/
inductive GraphInput where
  | value (v : JValue)
  | raw (s : String)
deriving Repr, DecidableEq, Inhabited

/-- The three externally owned stores `commitEdit` writes: the text-buffer
store (`useFile`: contents and dirty flag), the parsed-JSON store
(`useJson`: a serialized string), and the graph store. -/
structure Stores where
  fileContents : String
  fileHasChanges : Bool
  jsonStr : String
  graph : GraphInput
deriving Repr, DecidableEq, Inhabited

/-- The outcome of one modal commit: the stores afterwards, how many store
writes were performed, and whether the failure alert was shown. -/
structure CommitOut where
  stores : Stores
  writes : Nat
  alerted : Bool
deriving Repr, DecidableEq, Inhabited

/-- `commitEdit` of the node modal: coerce the draft, read the old value at
the node's path from the JSON store, shallow-merge object-over-object,
rewrite the document text at the path, then unconditionally write the JSON
store, the file store (marking unsaved changes), and the graph store
(parsed value, or raw text when reparsing fails).  Nothing in the body
throws, so the catch-and-alert branch is never taken. -/
def commitEdit (draft : String) (path : List Seg) (s : Stores) : CommitOut :=
  let newValue := coerceInputValue draft
  let jsonStr := s.jsonStr
  let originalFull := readValueAtPath jsonStr path
  let merged := mergePolicy originalFull newValue
  let updated := writeJsonAtPath jsonStr path merged
  let graphIn :=
    match parse updated with
    | some v => GraphInput.value v
    | none => GraphInput.raw updated
  { stores :=
      { fileContents := updated
        fileHasChanges := true
        jsonStr := updated
        graph := graphIn }
    writes := 3
    alerted := false }

/-- The file store alone, as the page-level handler sees it. -/
structure FileState where
  contents : String
  hasChanges : Bool
deriving Repr, DecidableEq, Inhabited

/-- `handleNodeSave` of the editor page: parse the current contents, apply
`setAtPath`, reserialize and write the file store; a parse failure is
caught before any write, leaving the store untouched (zero writes). -/
def handleNodeSave (path : List Seg) (value : JValue) (s : FileState) :
    FileState × Nat :=
  match parse s.contents with
  | none => (s, 0)
  | some cur =>
      ({ contents := stringify (setAtPath cur path value), hasChanges := true }, 1)

/-! ### Association list and array-assignment lemmas -/

theorem findKey_setKey_self (ms : List (String × JValue)) (k : String) (v : JValue) :
    findKey (setKey ms k v) k = some v := by
  induction ms with
  | nil => simp [setKey, findKey]
  | cons m rest ih =>
      obtain ⟨k2, w⟩ := m
      by_cases h : k2 = k
      · subst h; simp [setKey, findKey]
      · simp [setKey, findKey, h, ih]

theorem findKey_setKey_ne (ms : List (String × JValue)) (k k2 : String) (v : JValue)
    (h : k2 ≠ k) : findKey (setKey ms k v) k2 = findKey ms k2 := by
  induction ms with
  | nil => simp [setKey, findKey, Ne.symm h]
  | cons m rest ih =>
      obtain ⟨k3, w⟩ := m
      by_cases h3 : k3 = k
      · subst h3
        simp [setKey, findKey, Ne.symm h]
      · simp only [setKey, if_neg h3, findKey]
        split
        · rfl
        · exact ih

theorem findKey_not_mem (ms : List (String × JValue)) (k : String)
    (h : k ∉ ms.map Prod.fst) : findKey ms k = none := by
  induction ms with
  | nil => rfl
  | cons m rest ih =>
      obtain ⟨k2, w⟩ := m
      simp only [List.map_cons, List.mem_cons] at h
      push_neg at h
      have hne : ¬k2 = k := fun hh => h.1 hh.symm
      simp [findKey, hne, ih h.2]

theorem getD_setPad_self (n : Nat) (es : List JValue) (v : JValue) :
    ((setPad es n v)[n]?).getD .undef = v := by
  induction n generalizing es with
  | zero => cases es <;> simp [setPad]
  | succ n ih =>
      cases es with
      | nil => simpa [setPad] using ih []
      | cons e rest => simpa [setPad] using ih rest

theorem getD_setPad_ne (n : Nat) (es : List JValue) (m : Nat) (v : JValue)
    (h : m ≠ n) : ((setPad es n v)[m]?).getD .undef = (es[m]?).getD .undef := by
  induction n generalizing es m with
  | zero =>
      cases es <;> cases m <;> simp_all [setPad]
  | succ n ih =>
      cases es with
      | nil =>
          cases m with
          | zero => simp [setPad]
          | succ m => simpa [setPad] using ih [] m (by omega)
      | cons e rest =>
          cases m with
          | zero => simp [setPad]
          | succ m => simpa [setPad] using ih rest m (by omega)

/-! ### Decimal digit lemmas -/

theorem natCharsF_fuel : ∀ n f1 f2 : Nat, n ≤ f1 → n ≤ f2 →
    natCharsF f1 n = natCharsF f2 n := by
  intro n
  induction n using Nat.strong_induction_on with
  | _ n ih =>
      intro f1 f2 h1 h2
      match n, f1, f2 with
      | 0, f1, f2 => cases f1 <;> cases f2 <;> rfl
      | n + 1, g1 + 1, g2 + 1 =>
          simp only [natCharsF]
          by_cases hlt : n + 1 < 10
          · simp [hlt]
          · have hq : (n + 1) / 10 < n + 1 := Nat.div_lt_self (by omega) (by omega)
            rw [if_neg hlt, if_neg hlt, ih ((n + 1) / 10) hq g1 g2 (by omega) (by omega)]

theorem natChars_unfold (n : Nat) :
    natChars n =
      if n < 10 then [Char.ofNat (48 + n)]
      else natChars (n / 10) ++ [Char.ofNat (48 + n % 10)] := by
  match n with
  | 0 => rfl
  | n + 1 =>
      show natCharsF (n + 1) (n + 1) = _
      simp only [natCharsF]
      by_cases hlt : n + 1 < 10
      · simp [hlt]
      · have hq : (n + 1) / 10 < n + 1 := Nat.div_lt_self (by omega) (by omega)
        rw [if_neg hlt, if_neg hlt,
          natCharsF_fuel ((n + 1) / 10) n ((n + 1) / 10) (by omega) le_rfl]
        rfl

theorem digitC_spec (k : Nat) (hk : k < 10) :
    isDigitC (Char.ofNat (48 + k)) = true ∧ (Char.ofNat (48 + k)).toNat = 48 + k := by
  interval_cases k <;> exact ⟨by decide, by decide⟩

theorem natChars_ne_nil (n : Nat) : natChars n ≠ [] := by
  rw [natChars_unfold]
  split <;> simp

theorem natChars_digits (n : Nat) : ∀ c ∈ natChars n, isDigitC c = true := by
  induction n using Nat.strong_induction_on with
  | _ n ih =>
      rw [natChars_unfold]
      by_cases hlt : n < 10
      · simp only [if_pos hlt, List.mem_singleton]
        rintro c rfl
        exact (digitC_spec n hlt).1
      · simp only [if_neg hlt, List.mem_append, List.mem_singleton]
        rintro c (hc | rfl)
        · exact ih (n / 10) (Nat.div_lt_self (by omega) (by omega)) c hc
        · exact (digitC_spec (n % 10) (Nat.mod_lt _ (by omega))).1

theorem digitsToNat_append_one (l : List Char) (c : Char) :
    digitsToNat (l ++ [c]) = digitsToNat l * 10 + (c.toNat - 48) := by
  simp [digitsToNat, List.foldl_append]

theorem digitsToNat_natChars (n : Nat) : digitsToNat (natChars n) = n := by
  induction n using Nat.strong_induction_on with
  | _ n ih =>
      rw [natChars_unfold]
      by_cases hlt : n < 10
      · simp [if_pos hlt, digitsToNat, (digitC_spec n hlt).2]
      · rw [if_neg hlt, digitsToNat_append_one,
          ih (n / 10) (Nat.div_lt_self (by omega) (by omega)),
          (digitC_spec (n % 10) (Nat.mod_lt _ (by omega))).2]
        omega

theorem natChars_inj {a b : Nat} (h : natChars a = natChars b) : a = b := by
  have := digitsToNat_natChars a
  rw [h, digitsToNat_natChars] at this
  omega

theorem natChars_head_ne_zero (n : Nat) (hn : n ≠ 0) :
    ∀ c t, natChars n = c :: t → c ≠ '0' := by
  induction n using Nat.strong_induction_on with
  | _ n ih =>
      rw [natChars_unfold]
      by_cases hlt : n < 10
      · simp only [if_pos hlt]
        rintro c t h
        obtain ⟨rfl, -⟩ : c = Char.ofNat (48 + n) ∧ t = [] := by
          have h2 := h.symm
          simp only [List.cons.injEq] at h2
          exact ⟨h2.1, h2.2⟩
        intro hc
        have h48 := (digitC_spec n hlt).2
        rw [hc] at h48
        simp at h48
        omega
      · simp only [if_neg hlt]
        intro c t h
        obtain ⟨c2, t2, ht2⟩ : ∃ c2 t2, natChars (n / 10) = c2 :: t2 := by
          cases hh : natChars (n / 10) with
          | nil => exact absurd hh (natChars_ne_nil _)
          | cons a b => exact ⟨a, b, rfl⟩
        rw [ht2] at h
        simp only [List.cons_append, List.cons.injEq] at h
        exact h.1 ▸ ih (n / 10) (Nat.div_lt_self (by omega) (by omega)) (by omega) c2 t2 ht2

/-- Segment keys: distinct indices give distinct property keys. -/
theorem pkey_idx_inj {m n : Nat} (h : Seg.pkey (.idx m) = Seg.pkey (.idx n)) : m = n := by
  simp only [Seg.pkey] at h
  exact natChars_inj (congrArg String.data h)

/-! ### Read/walk lemmas -/

theorem walk_nil (root : JValue) : walk root [] = root := rfl

theorem walk_cons (root : JValue) (s : Seg) (rest : List Seg) :
    walk root (s :: rest) = walk (jsGet root s) rest := rfl

theorem jsGet_undef (s : Seg) : jsGet .undef s = .undef := rfl

theorem walk_undef (p : List Seg) : walk .undef p = .undef := by
  induction p with
  | nil => rfl
  | cons s rest ih => rw [walk_cons, jsGet_undef, ih]

theorem jsGet_scalar (root : JValue) (s : Seg) (h : root.isContainer = false) :
    jsGet root s = .undef := by
  cases root <;> simp_all [JValue.isContainer, jsGet]

theorem cloneHeal_scalar (root : JValue) (h : Seg) (hc : root.isContainer = false) :
    cloneHeal root h = h.fresh := by
  cases root <;> simp_all [JValue.isContainer, cloneHeal]

/-! ### Positions and the mutation frame -/

/-- Ancestor-or-self on positions: `keysLe p q` holds when `p`'s property
keys are a prefix of `q`'s (so the location `p` addresses is an ancestor of,
or equal to, the one `q` addresses).  Segments are compared by the property
key they denote, since `obj[5]` and `obj["5"]` address the same slot. -/
def keysLe : List Seg → List Seg → Bool
  | [], _ => true
  | _ :: _, [] => false
  | a :: as, b :: bs => if a.pkey = b.pkey then keysLe as bs else false

theorem keysLe_nil (q : List Seg) : keysLe [] q = true := rfl

/-- Reading any segment off the just-assigned fresh container at a
different key misses. -/
theorem jsGet_assign_fresh_ne (h q : Seg) (x : JValue) (hne : q.pkey ≠ h.pkey) :
    jsGet (assignC h.fresh h x) q = .undef := by
  cases h with
  | key s =>
      have hs : ¬s = q.pkey := fun e => hne (by simp [Seg.pkey, e])
      cases q <;> simp [Seg.fresh, assignC, setKey, jsGet, findKey, Seg.pkey] <;>
        simp [Seg.pkey] at hs <;> simp [hs]
  | idx n =>
      cases q with
      | idx m =>
          have hmn : m ≠ n := fun e => hne (by rw [e])
          simp [Seg.fresh, assignC, jsGet, getD_setPad_ne n [] m x hmn]
      | key s => simp [Seg.fresh, assignC, jsGet]

/-- Assigning at one key leaves reads at any other key unchanged, healing
included. -/
theorem jsGet_assign_ne (root : JValue) (h q : Seg) (x : JValue)
    (hne : q.pkey ≠ h.pkey) :
    jsGet (assignC (cloneHeal root h) h x) q = jsGet root q := by
  by_cases hc : root.isContainer
  · cases root with
    | arr es =>
        cases h with
        | idx n =>
            cases q with
            | idx m =>
                have hmn : m ≠ n := fun e => hne (by rw [e])
                simp [cloneHeal, assignC, jsGet, getD_setPad_ne n es m x hmn]
            | key s => simp [cloneHeal, assignC, jsGet]
        | key s => simp [cloneHeal, assignC, jsGet]
    | obj ms =>
        simp [cloneHeal, assignC, jsGet, findKey_setKey_ne ms h.pkey q.pkey x hne]
    | undef => simp [JValue.isContainer] at hc
    | null => simp [JValue.isContainer] at hc
    | bool b => simp [JValue.isContainer] at hc
    | num n => simp [JValue.isContainer] at hc
    | str s => simp [JValue.isContainer] at hc
  · rw [cloneHeal_scalar root h (by simpa using hc),
      jsGet_assign_fresh_ne h q x hne,
      jsGet_scalar root q (by simpa using hc)]

/-- Assigning at a key and reading back at the same property key: either
the read returns the assigned value and the original read at that spot
agrees with the read off the clone, or the assignment left reads unchanged
(the dropped string-segment-on-array write). -/
theorem jsGet_assign_eq (root : JValue) (h q : Seg) (x : JValue)
    (hk : q.pkey = h.pkey) :
    (jsGet (assignC (cloneHeal root h) h x) q = x ∧
      jsGet root q = jsGet (cloneHeal root h) h) ∨
    jsGet (assignC (cloneHeal root h) h x) q = jsGet root q := by
  by_cases hc : root.isContainer
  · cases root with
    | arr es =>
        cases h with
        | idx n =>
            cases q with
            | idx m =>
                have hmn : m = n := pkey_idx_inj hk
                subst hmn
                exact Or.inl ⟨by simp [cloneHeal, assignC, jsGet, getD_setPad_self],
                  by simp [cloneHeal]⟩
            | key s => exact Or.inr (by simp [cloneHeal, assignC, jsGet])
        | key s => exact Or.inr (by simp [cloneHeal, assignC, jsGet])
    | obj ms =>
        refine Or.inl ⟨?_, ?_⟩
        · simp [cloneHeal, assignC, jsGet, hk, findKey_setKey_self]
        · simp [cloneHeal, jsGet, hk]
    | undef => simp [JValue.isContainer] at hc
    | null => simp [JValue.isContainer] at hc
    | bool b => simp [JValue.isContainer] at hc
    | num n => simp [JValue.isContainer] at hc
    | str s => simp [JValue.isContainer] at hc
  · have hs : root.isContainer = false := by simpa using hc
    rw [cloneHeal_scalar root h hs, jsGet_scalar root q hs]
    cases h with
    | key s =>
        refine Or.inl ⟨?_, ?_⟩
        · have hqs : Seg.pkey q = s := by simpa [Seg.pkey] using hk
          show jsGet (assignC (.obj []) (.key s) x) q = x
          simp only [assignC, setKey, jsGet, findKey]
          rw [show Seg.pkey (.key s) = s from rfl, if_pos hqs.symm]
          rfl
        · simp [Seg.fresh, jsGet, findKey]
    | idx n =>
        cases q with
        | idx m =>
            have hmn : m = n := pkey_idx_inj hk
            subst hmn
            exact Or.inl ⟨by simp [Seg.fresh, assignC, jsGet, getD_setPad_self],
              by simp [Seg.fresh, jsGet]⟩
        | key s => exact Or.inr (by simp [Seg.fresh, assignC, jsGet])

/-- The mutation frame: `setAtPath` changes nothing at any position
incomparable with the written path (neither an ancestor-or-self nor a
descendant, comparing positions by property keys). -/
theorem walk_setAtPath_incomp :
    ∀ (p : List Seg) (root v : JValue) (q : List Seg),
      keysLe p q = false → keysLe q p = false →
      walk (setAtPath root p v) q = walk root q := by
  intro p
  induction p with
  | nil => intro root v q hpq _; rw [keysLe_nil] at hpq; cases hpq
  | cons h t ih =>
      intro root v q hpq hqp
      cases q with
      | nil => rw [keysLe_nil] at hqp; cases hqp
      | cons qh qt =>
          by_cases hk : qh.pkey = h.pkey
          · have hpq' : keysLe t qt = false := by
              simpa [keysLe, hk.symm] using hpq
            have hqp' : keysLe qt t = false := by
              simpa [keysLe, hk] using hqp
            cases t with
            | nil => rw [keysLe_nil] at hpq'; cases hpq'
            | cons s t2 =>
                rw [walk_cons, walk_cons]
                show walk
                  (jsGet (assignC (cloneHeal root h) h
                    (setAtPath (jsGet (cloneHeal root h) h) (s :: t2) v)) qh) qt = _
                rcases jsGet_assign_eq root h qh
                    (setAtPath (jsGet (cloneHeal root h) h) (s :: t2) v) hk with
                  ⟨e1, e2⟩ | e
                · rw [e1, e2]
                  exact ih (jsGet (cloneHeal root h) h) v qt hpq' hqp'
                · rw [e]
          · rw [walk_cons, walk_cons]
            have hne : Seg.pkey qh ≠ Seg.pkey h := hk
            cases t with
            | nil =>
                show walk (jsGet (assignC (cloneHeal root h) h v) qh) qt = _
                rw [jsGet_assign_ne root h qh v hne]
            | cons s t2 =>
                show walk
                  (jsGet (assignC (cloneHeal root h) h
                    (setAtPath (jsGet (cloneHeal root h) h) (s :: t2) v)) qh) qt = _
                rw [jsGet_assign_ne root h qh _ hne]

/-! ### Writing then reading back along a fitting path -/

/-- The one step `setAtPath` cannot store through: a string segment on an
array (the write lands in a non-index property that serialization drops). -/
def badStep (root : JValue) (h : Seg) : Bool :=
  match root, h with
  | .arr _, .key _ => true
  | _, _ => false

/-- A path fits a document when no level pairs an array with a string
segment — on existing containers and on the containers healing creates
(whose kind the segment itself chooses, so healed levels always fit). -/
def pathFits : JValue → List Seg → Bool
  | _, [] => true
  | root, h :: t =>
      !badStep root h && pathFits (jsGet (cloneHeal root h) h) t

/-- Reading straight back at the assigned segment returns the assigned
value, except through the dropped array-string write. -/
theorem jsGet_assign_self (root : JValue) (h : Seg) (x : JValue)
    (hb : badStep root h = false) :
    jsGet (assignC (cloneHeal root h) h x) h = x := by
  by_cases hc : root.isContainer
  · cases root with
    | arr es =>
        cases h with
        | idx n => simp [cloneHeal, assignC, jsGet, getD_setPad_self]
        | key s => simp [badStep] at hb
    | obj ms => simp [cloneHeal, assignC, jsGet, findKey_setKey_self]
    | undef => simp [JValue.isContainer] at hc
    | null => simp [JValue.isContainer] at hc
    | bool b => simp [JValue.isContainer] at hc
    | num n => simp [JValue.isContainer] at hc
    | str s => simp [JValue.isContainer] at hc
  · rw [cloneHeal_scalar root h (by simpa using hc)]
    cases h with
    | key s => simp [Seg.fresh, assignC, setKey, jsGet, findKey]
    | idx n => simp [Seg.fresh, assignC, jsGet, getD_setPad_self]

/-- Reading after writing: `walk (setAtPath root p v) p = v` on every
nonempty fitting path. -/
theorem walk_setAtPath_self :
    ∀ (p : List Seg) (root v : JValue), p ≠ [] → pathFits root p = true →
      walk (setAtPath root p v) p = v := by
  intro p
  induction p with
  | nil => intro root v hne _; exact absurd rfl hne
  | cons h t ih =>
      intro root v _ hf
      simp only [pathFits, Bool.and_eq_true, Bool.not_eq_true'] at hf
      obtain ⟨hb, hf'⟩ := hf
      cases t with
      | nil =>
          show walk (jsGet (assignC (cloneHeal root h) h v) h) [] = v
          rw [jsGet_assign_self root h v hb, walk_nil]
      | cons s t2 =>
          show walk
            (jsGet (assignC (cloneHeal root h) h
              (setAtPath (jsGet (cloneHeal root h) h) (s :: t2) v)) h) (s :: t2) = v
          rw [jsGet_assign_self root h _ hb]
          exact ih (jsGet (cloneHeal root h) h) v (by simp) hf'

/-! ### Healing a missing level -/

/-- When the current level is absent, null or a scalar, `setAtPath`
proceeds exactly as if that level were the fresh empty container chosen by
the head segment. -/
theorem setAtPath_heal (root : JValue) (h : Seg) (t : List Seg) (v : JValue)
    (hc : root.isContainer = false) :
    setAtPath root (h :: t) v = setAtPath h.fresh (h :: t) v := by
  have hch : cloneHeal root h = h.fresh := cloneHeal_scalar root h hc
  have hfr : cloneHeal h.fresh h = h.fresh := by cases h <;> rfl
  cases t with
  | nil =>
      show assignC (cloneHeal root h) h v = assignC (cloneHeal h.fresh h) h v
      rw [hch, hfr]
  | cons s t2 =>
      show assignC (cloneHeal root h) h _ = assignC (cloneHeal h.fresh h) h _
      rw [hch, hfr]

/-! ### The shallow merge -/

/-- First-some choice on options, the shape of a shallow merge lookup. -/
def orO (a b : Option JValue) : Option JValue :=
  match a with
  | some v => some v
  | none => b

/-- Looking a key up in the spread `{...oms, ...pms}`: the proposed entries
win, the old entries back them up.  (JavaScript objects have duplicate-free
keys, whence the `Nodup` hypothesis on the spread-in entries.) -/
theorem findKey_mergeFold :
    ∀ (pms oms : List (String × JValue)) (k : String),
      (pms.map Prod.fst).Nodup →
      findKey (pms.foldl (fun acc kv => setKey acc kv.1 kv.2) oms) k =
        orO (findKey pms k) (findKey oms k) := by
  intro pms
  induction pms with
  | nil => intro oms k _; rfl
  | cons m rest ih =>
      intro oms k hnd
      obtain ⟨pk, pv⟩ := m
      simp only [List.map_cons, List.nodup_cons] at hnd
      obtain ⟨hnotin, hnd'⟩ := hnd
      rw [List.foldl_cons, ih (setKey oms pk pv) k hnd']
      by_cases hk : pk = k
      · subst hk
        rw [findKey_not_mem rest pk hnotin, findKey_setKey_self]
        simp [findKey, orO]
      · rw [findKey_setKey_ne oms pk k pv (Ne.symm hk)]
        simp [findKey, hk]

/-! ### Claim theorems -/

/-- Object test of the merge guard. -/
def JValue.isObj : JValue → Bool
  | .obj _ => true
  | _ => false

/-- Claim C2, counterexample: the subtree of `set(D, P, V)` at a strict
descendant of `P` — a position that is not an ancestor-or-self of `P` —
comes from `V`, not from `D`: with `D = \x7b"a": \x7b"b": 1\x7d\x7d`,
`P = ["a"]`, `V = \x7b"b": 2\x7d`, the result at `["a","b"]` is `2` while
`D` there holds `1`. -/
theorem C2_counterexample :
    keysLe [Seg.key "a", Seg.key "b"] [Seg.key "a"] = false ∧
    walk (setAtPath (JValue.obj [("a", JValue.obj [("b", JValue.num 1)])])
        [Seg.key "a"] (JValue.obj [("b", JValue.num 2)]))
        [Seg.key "a", Seg.key "b"] ≠
      walk (JValue.obj [("a", JValue.obj [("b", JValue.num 1)])])
        [Seg.key "a", Seg.key "b"] := by
  decide

/-- Claim C2 (amended): `set(D, P, V)` leaves the value readable at every
position incomparable with `P` — neither an ancestor-or-self nor a
descendant of `P`, positions compared by property key — exactly as in `D`.
(`setAtPath` is a pure function of its arguments, so the input document
itself is never mutated; sharing of the untouched subtrees is modelled as
value equality.) -/
theorem C2_amended (root v : JValue) (p q : List Seg)
    (hpq : keysLe p q = false) (hqp : keysLe q p = false) :
    walk (setAtPath root p v) q = walk root q :=
  walk_setAtPath_incomp p root v q hpq hqp

/-- Witness for C2 at a concrete incomparable pair of positions. -/
theorem C2_amended_witness :
    (keysLe [Seg.key "a"] [Seg.key "c"] = false ∧
      keysLe [Seg.key "c"] [Seg.key "a"] = false) ∧
    walk (setAtPath (JValue.obj [("a", JValue.num 1), ("c", JValue.num 7)])
        [Seg.key "a"] (JValue.num 2)) [Seg.key "c"] =
      walk (JValue.obj [("a", JValue.num 1), ("c", JValue.num 7)])
        [Seg.key "c"] :=
  ⟨⟨by decide, by decide⟩,
    C2_amended (JValue.obj [("a", JValue.num 1), ("c", JValue.num 7)])
      (JValue.num 2) [Seg.key "a"] [Seg.key "c"] (by decide) (by decide)⟩

/-- Claim C3: reading at `P` after setting `V` at `P` returns exactly `V`,
for every document and every nonempty path that fits it (each traversed
level pairs arrays with numeric segments; object levels take either kind,
and healed levels always fit). -/
theorem C3_round_trip (root v : JValue) (p : List Seg)
    (hne : p ≠ []) (hf : pathFits root p = true) :
    walk (setAtPath root p v) p = v :=
  walk_setAtPath_self p root v hne hf

/-- Witness for C3: a nested write into an array slot reads back. -/
theorem C3_round_trip_witness :
    (([Seg.key "a", Seg.idx 1] : List Seg) ≠ [] ∧
      pathFits (JValue.obj [("a", JValue.arr [JValue.num 1, JValue.num 2])])
        [Seg.key "a", Seg.idx 1] = true) ∧
    walk (setAtPath (JValue.obj [("a", JValue.arr [JValue.num 1, JValue.num 2])])
        [Seg.key "a", Seg.idx 1] (JValue.num 9)) [Seg.key "a", Seg.idx 1] =
      JValue.num 9 :=
  ⟨⟨by decide, by decide⟩,
    C3_round_trip (JValue.obj [("a", JValue.arr [JValue.num 1, JValue.num 2])])
      (JValue.num 9) [Seg.key "a", Seg.idx 1] (by decide) (by decide)⟩

/-- Claim C4: the merge policy shallow-merges exactly when both sides are
plain objects — every key then reads as the proposed entry if present,
otherwise the old entry, and nested values are replaced wholesale — and in
every other case returns the proposed value unchanged.  On the spec's
example, merging proposed entries b=3, c=4 over old entries a=1, b=2 gives
a=1, b=3, c=4. -/
theorem C4_merge :
    (∀ old new : JValue, (old.isObj && new.isObj) = false →
        mergePolicy old new = new) ∧
    (∀ (oms pms : List (String × JValue)), (pms.map Prod.fst).Nodup →
        ∃ ms, mergePolicy (.obj oms) (.obj pms) = .obj ms ∧
          ∀ k, findKey ms k = orO (findKey pms k) (findKey oms k)) ∧
    mergePolicy (.obj [("a", JValue.num 1), ("b", JValue.num 2)])
        (.obj [("b", JValue.num 3), ("c", JValue.num 4)]) =
      .obj [("a", JValue.num 1), ("b", JValue.num 3), ("c", JValue.num 4)] := by
  refine ⟨?_, ?_, by decide⟩
  · intro old new h
    cases old <;> cases new <;> simp_all [mergePolicy, JValue.isObj]
  · intro oms pms hnd
    exact ⟨_, rfl, fun k => findKey_mergeFold pms oms k hnd⟩

/-- Witness for C4: a non-object old value is fully replaced, and the
object-object merge resolves a concrete key by the proposed side. -/
theorem C4_merge_witness :
    ((JValue.arr [JValue.num 1]).isObj && (JValue.obj [("x", JValue.num 1)]).isObj) = false ∧
    mergePolicy (JValue.arr [JValue.num 1]) (JValue.obj [("x", JValue.num 1)]) =
      JValue.obj [("x", JValue.num 1)] ∧
    (([("b", JValue.num 3)].map (Prod.fst (β := JValue))).Nodup ∧
      ∃ ms, mergePolicy (.obj [("a", JValue.num 1), ("b", JValue.num 2)])
          (.obj [("b", JValue.num 3)]) = .obj ms ∧
        ∀ k, findKey ms k =
          orO (findKey [("b", JValue.num 3)] k)
            (findKey [("a", JValue.num 1), ("b", JValue.num 2)] k)) :=
  ⟨by decide,
    C4_merge.1 (JValue.arr [JValue.num 1]) (JValue.obj [("x", JValue.num 1)]) (by decide),
    by decide,
    C4_merge.2.1 [("a", JValue.num 1), ("b", JValue.num 2)] [("b", JValue.num 3)] (by decide)⟩

/-- Claim C6: when `set` reaches a level whose current value is absent,
null, or not a container, it proceeds exactly as on the fresh empty
container chosen by the segment — an array for a numeric segment, an
object otherwise — and `set(null, ["a", 0], 5)` builds
`\x7b"a": [5]\x7d`. -/
theorem C6_healing :
    (∀ (root : JValue) (h : Seg) (t : List Seg) (v : JValue),
        root.isContainer = false →
        setAtPath root (h :: t) v = setAtPath h.fresh (h :: t) v) ∧
    Seg.fresh (.idx 0) = JValue.arr [] ∧ Seg.fresh (.key "a") = JValue.obj [] ∧
    setAtPath JValue.null [Seg.key "a", Seg.idx 0] (JValue.num 5) =
      JValue.obj [("a", JValue.arr [JValue.num 5])] :=
  ⟨setAtPath_heal, by decide, by decide, by decide⟩

/-- Witness for C6: healing at a numeric segment behaves as on a fresh
empty array. -/
theorem C6_healing_witness :
    JValue.null.isContainer = false ∧
    setAtPath JValue.null [Seg.idx 1] (JValue.num 7) =
      setAtPath (Seg.fresh (.idx 1)) [Seg.idx 1] (JValue.num 7) :=
  ⟨by decide, C6_healing.1 JValue.null (Seg.idx 1) [] (JValue.num 7) (by decide)⟩

/-- Claim C8: the read walk returns the root on the empty path (null
included); any segment read off a non-container misses; and once a read
misses, the whole walk returns the not-found signal (`undef`) no matter
what segments remain — so the first failing step decides the result.  The
walk is a pure function: it never mutates the document. -/
theorem C8_get :
    (∀ root : JValue, walk root [] = root) ∧
    (∀ (root : JValue) (s : Seg), root.isContainer = false →
        jsGet root s = .undef) ∧
    (∀ (root : JValue) (s : Seg) (rest : List Seg), jsGet root s = .undef →
        walk root (s :: rest) = .undef) := by
  refine ⟨walk_nil, jsGet_scalar, ?_⟩
  intro root s rest h
  rw [walk_cons, h, walk_undef]

/-- Witness for C8: a number root misses every segment, and a walk over it
returns the not-found signal; the empty path on a null root returns null. -/
theorem C8_get_witness :
    walk JValue.null [] = JValue.null ∧
    ((JValue.num 5).isContainer = false ∧ jsGet (JValue.num 5) (Seg.key "a") = .undef) ∧
    walk (JValue.num 5) [Seg.key "a", Seg.idx 0] = .undef :=
  ⟨C8_get.1 JValue.null, ⟨by decide, C8_get.2.1 (JValue.num 5) (Seg.key "a") (by decide)⟩,
    C8_get.2.2 (JValue.num 5) (Seg.key "a") [Seg.idx 0] (by decide)⟩

/-- Claim C7: input coercion — blank input (after trimming) commits as the
empty string; input whose trimmed text parses as JSON commits as the
parsed value (so the text `5` commits as the number `5`); any other input
commits as the raw text itself (so `hello` commits as the string
`"hello"`), never as a parse error. -/
theorem C7_coercion :
    (∀ content : String, jsTrim content = "" → coerceInputValue content = .str "") ∧
    (∀ (content : String) (v : JValue), parse (jsTrim content) = some v →
        jsTrim content ≠ "" → coerceInputValue content = v) ∧
    (∀ content : String, parse (jsTrim content) = none →
        jsTrim content ≠ "" → coerceInputValue content = .str content) ∧
    coerceInputValue "5" = JValue.num 5 ∧
    coerceInputValue "hello" = JValue.str "hello" ∧
    coerceInputValue "" = JValue.str "" := by
  refine ⟨?_, ?_, ?_, by decide, by decide, by decide⟩
  · intro content h; simp [coerceInputValue, h]
  · intro content v hp hne; simp [coerceInputValue, hne, hp]
  · intro content hp hne; simp [coerceInputValue, hne, hp]

/-- Witness for C7 discharging each branch hypothesis concretely. -/
theorem C7_coercion_witness :
    (jsTrim " " = "" ∧ coerceInputValue " " = .str "") ∧
    (parse (jsTrim " 5 ") = some (JValue.num 5) ∧ jsTrim " 5 " ≠ "" ∧
      coerceInputValue " 5 " = JValue.num 5) ∧
    (parse (jsTrim "hi there") = none ∧ jsTrim "hi there" ≠ "" ∧
      coerceInputValue "hi there" = .str "hi there") :=
  ⟨⟨by decide, C7_coercion.1 " " (by decide)⟩,
    ⟨by decide, by decide, C7_coercion.2.1 " 5 " (JValue.num 5) (by decide) (by decide)⟩,
    ⟨by decide, by decide, C7_coercion.2.2.1 "hi there" (by decide) (by decide)⟩⟩

/-- Claim C9: `writeJsonAtPath` acts as the identity on the document text
on every error path — when the text does not parse, and when the in-place
traversal of a parsed document throws (a missing or non-container
intermediate value, including the assignment target). -/
theorem C9_write_id :
    (∀ (json : String) (p : List Seg) (v : JValue), parse json = none →
        writeJsonAtPath json p v = json) ∧
    (∀ (json : String) (d : JValue) (p : List Seg) (v : JValue),
        parse json = some d → p ≠ [] → mutateAt d p v = none →
        writeJsonAtPath json p v = json) := by
  constructor
  · intro json p v h
    simp [writeJsonAtPath, h]
  · intro json d p v hp hne hm
    cases p with
    | nil => exact absurd rfl hne
    | cons s rest => simp [writeJsonAtPath, hp, hm]

/-- Witness for C9: writing under a missing key and into an unparseable
document both leave the text untouched. -/
theorem C9_write_id_witness :
    (parse "nope" = none ∧
      writeJsonAtPath "nope" [Seg.key "a"] (JValue.num 1) = "nope") ∧
    (parse "\x7b\"a\":1\x7d" = some (JValue.obj [("a", JValue.num 1)]) ∧
      ([Seg.key "b", Seg.key "c"] : List Seg) ≠ [] ∧
      mutateAt (JValue.obj [("a", JValue.num 1)]) [Seg.key "b", Seg.key "c"]
        (JValue.num 2) = none ∧
      writeJsonAtPath "\x7b\"a\":1\x7d" [Seg.key "b", Seg.key "c"]
        (JValue.num 2) = "\x7b\"a\":1\x7d") :=
  ⟨⟨by decide, C9_write_id.1 "nope" [Seg.key "a"] (JValue.num 1) (by decide)⟩,
    by decide, by decide, by decide,
    C9_write_id.2 "\x7b\"a\":1\x7d" (JValue.obj [("a", JValue.num 1)])
      [Seg.key "b", Seg.key "c"] (JValue.num 2) (by decide) (by decide) (by decide)⟩

/-- Claim C10: the three helpers are total functions in this model — every
parse or traversal failure is handled inside them — and on those failure
paths they return the documented fallbacks: `null` from the reader, the
original text from the writer, the raw text from the coercion. -/
theorem C10_total :
    (∀ (json : String) (p : List Seg), parse json = none →
        readValueAtPath json p = .null) ∧
    (∀ (json : String) (p : List Seg) (v : JValue), parse json = none →
        writeJsonAtPath json p v = json) ∧
    (∀ (json : String) (d : JValue) (p : List Seg) (v : JValue),
        parse json = some d → p ≠ [] → mutateAt d p v = none →
        writeJsonAtPath json p v = json) ∧
    (∀ content : String, parse (jsTrim content) = none → jsTrim content ≠ "" →
        coerceInputValue content = .str content) := by
  refine ⟨?_, ?_, ?_, ?_⟩
  · intro json p h; simp [readValueAtPath, h]
  · intro json p v h; simp [writeJsonAtPath, h]
  · intro json d p v hp hne hm
    cases p with
    | nil => exact absurd rfl hne
    | cons s rest => simp [writeJsonAtPath, hp, hm]
  · intro content hp hne; simp [coerceInputValue, hne, hp]

/-- Witness for C10 at concrete failing inputs. -/
theorem C10_total_witness :
    (parse "x" = none ∧ readValueAtPath "x" [Seg.idx 0] = .null) ∧
    writeJsonAtPath "x" [] (JValue.num 1) = "x" ∧
    writeJsonAtPath "7" [Seg.key "a", Seg.key "b"] (JValue.num 1) = "7" ∧
    coerceInputValue "abc" = .str "abc" :=
  ⟨⟨by decide, C10_total.1 "x" [Seg.idx 0] (by decide)⟩,
    C10_total.2.1 "x" [] (JValue.num 1) (by decide),
    C10_total.2.2.1 "7" (JValue.num 7) [Seg.key "a", Seg.key "b"] (JValue.num 1)
      (by decide) (by decide) (by decide),
    C10_total.2.2.2 "abc" (by decide) (by decide)⟩

/-- Claim C1, counterexample: with unparseable document text, the modal
commit does not abort with zero writes — it performs its three store
writes, flips the dirty flag, rewrites the text-buffer contents, hands the
graph store the raw text (changing it from its pre-transaction value), and
reports no failure. -/
theorem C1_counterexample :
    parse "\x7binvalid" = none ∧
    (commitEdit "1" [Seg.key "a"]
        { fileContents := "old", fileHasChanges := false,
          jsonStr := "\x7binvalid", graph := .value (JValue.num 0) }).writes = 3 ∧
    (commitEdit "1" [Seg.key "a"]
        { fileContents := "old", fileHasChanges := false,
          jsonStr := "\x7binvalid", graph := .value (JValue.num 0) }).alerted = false ∧
    (commitEdit "1" [Seg.key "a"]
        { fileContents := "old", fileHasChanges := false,
          jsonStr := "\x7binvalid", graph := .value (JValue.num 0) }).stores ≠
      { fileContents := "old", fileHasChanges := false,
        jsonStr := "\x7binvalid", graph := .value (JValue.num 0) } := by
  decide

/-- Claim C1 (amended): on an unparseable document the page-level handler
(`handleNodeSave`) aborts before any write, leaving the file store exactly
as it was; the modal commit (`commitEdit`) instead still performs its three
writes — the unparseable text goes back to the text-buffer and parsed-JSON
stores with the dirty flag set, the raw text goes to the graph store — and
reports no failure. -/
theorem C1_amended :
    (∀ (s : Stores) (draft : String) (p : List Seg), parse s.jsonStr = none →
        commitEdit draft p s =
          { stores := { fileContents := s.jsonStr, fileHasChanges := true,
                        jsonStr := s.jsonStr, graph := .raw s.jsonStr },
            writes := 3, alerted := false }) ∧
    (∀ (fs : FileState) (p : List Seg) (v : JValue), parse fs.contents = none →
        handleNodeSave p v fs = (fs, 0)) := by
  constructor
  · intro s draft p h
    simp [commitEdit, writeJsonAtPath, h]
  · intro fs p v h
    simp [handleNodeSave, h]

/-- Witness for C1 discharging the parse-failure hypotheses concretely. -/
theorem C1_amended_witness :
    (parse "\x7bbad" = none ∧
      commitEdit "2" []
          { fileContents := "c", fileHasChanges := false,
            jsonStr := "\x7bbad", graph := .value .null } =
        { stores := { fileContents := "\x7bbad", fileHasChanges := true,
                      jsonStr := "\x7bbad", graph := .raw "\x7bbad" },
          writes := 3, alerted := false }) ∧
    handleNodeSave [] JValue.null { contents := "\x7bbad", hasChanges := false } =
      ({ contents := "\x7bbad", hasChanges := false }, 0) :=
  ⟨⟨by decide,
      C1_amended.1
        { fileContents := "c", fileHasChanges := false,
          jsonStr := "\x7bbad", graph := .value .null } "2" [] (by decide)⟩,
    C1_amended.2 { contents := "\x7bbad", hasChanges := false } [] JValue.null (by decide)⟩

/-! ### Parser-printer round trip, auxiliary lemmas -/

/-- A remainder the value parser may legally stop in front of: end of
input, a separating comma, or the newline before a closing bracket.  (No
such remainder starts with a digit, so number parsing never overruns.) -/
def restOk : List Char → Bool
  | [] => true
  | c :: _ => c = ',' || c = '\n'

theorem skipWs_cons_ws (c : Char) (cs : List Char) (h : isWsC c = true) :
    skipWs (c :: cs) = skipWs cs := by
  simp [skipWs, h]

theorem skipWs_cons_not (c : Char) (cs : List Char) (h : isWsC c = false) :
    skipWs (c :: cs) = c :: cs := by
  simp [skipWs, h]

theorem skipWs_spL (n : Nat) (cs : List Char) : skipWs (spL n ++ cs) = skipWs cs := by
  induction n with
  | zero => rfl
  | succ n ih =>
      show skipWs (' ' :: (spL n ++ cs)) = skipWs cs
      rw [skipWs_cons_ws ' ' _ (by decide), ih]

theorem parseVal_eq_of_skipWs (f : Nat) (cs cs' : List Char)
    (h : skipWs cs = skipWs cs') : parseVal f cs = parseVal f cs' := by
  cases f with
  | zero => rfl
  | succ f => rw [parseVal, parseVal, h]

theorem parseElems_eq_of_skipWs (f : Nat) (cs cs' : List Char)
    (h : skipWs cs = skipWs cs') : parseElems f cs = parseElems f cs' := by
  cases f with
  | zero => rfl
  | succ f => rw [parseElems, parseElems, parseVal_eq_of_skipWs f cs cs' h]

theorem parseMems_eq_of_skipWs (f : Nat) (cs cs' : List Char)
    (h : skipWs cs = skipWs cs') : parseMems f cs = parseMems f cs' := by
  cases f with
  | zero => rfl
  | succ f => rw [parseMems, parseMems, h]

/-! ### String escape round trip -/

theorem parseStr_escC (c : Char) (rest : List Char) (h : okChar c) :
    parseStrChars (escC c ++ rest) =
      (parseStrChars rest).map fun lr => (c :: lr.1, lr.2) := by
  by_cases hq : c = '"'
  · subst hq; simp [escC, parseStrChars, unescC]
  · by_cases hb : c = '\\'
    · subst hb; simp [escC, parseStrChars, unescC]
    · by_cases hn : c = '\n'
      · subst hn; simp [escC, parseStrChars, unescC]
      · by_cases ht : c = '\t'
        · subst ht; simp [escC, parseStrChars, unescC]
        · by_cases hr : c = '\r'
          · subst hr; simp [escC, parseStrChars, unescC]
          · by_cases h8 : c = Char.ofNat 8
            · subst h8; simp [escC, parseStrChars, unescC]
            · by_cases h12 : c = Char.ofNat 12
              · subst h12; simp [escC, parseStrChars, unescC]
              · have hge : 32 ≤ c.toNat := by
                  rcases h with h | h | h | h | h | h
                  · exact h
                  all_goals exact absurd h (by assumption)
                rw [escC, if_neg hq, if_neg hb, if_neg hn, if_neg ht, if_neg hr,
                  if_neg h8, if_neg h12]
                show parseStrChars (c :: rest) = _
                rw [parseStrChars.eq_def]
                split
                · rename_i heq
                  exact absurd (List.cons.inj heq).1 hb
                · rename_i heq
                  exact absurd (List.cons.inj heq).1 hq
                · rename_i c2 r2 hno hnq heq
                  obtain ⟨rfl, rfl⟩ : c = c2 ∧ rest = r2 :=
                    ⟨(List.cons.inj heq).1, (List.cons.inj heq).2⟩
                  rw [if_pos hge]
                · rename_i heq
                  cases heq

theorem parseStr_escL (l : List Char) (rest : List Char)
    (hw : (l.all fun c => decide (okChar c)) = true) :
    parseStrChars (escL l ++ '"' :: rest) = some (l, rest) := by
  induction l with
  | nil =>
      show parseStrChars (escL [] ++ '"' :: rest) = some ([], rest)
      rfl
  | cons c t ih =>
      simp only [List.all_cons, Bool.and_eq_true, decide_eq_true_eq] at hw
      show parseStrChars ((escC c ++ escL t) ++ '"' :: rest) = _
      rw [List.append_assoc, parseStr_escC c _ hw.1,
        ih (by simpa using hw.2)]
      rfl

/-! ### Number round trip -/

theorem spanDigits_stop (rest : List Char)
    (h : ∀ c t, rest = c :: t → isDigitC c = false) :
    spanDigits rest = ([], rest) := by
  cases rest with
  | nil => rfl
  | cons c t => simp [spanDigits, h c t rfl]

theorem spanDigits_append (ds rest : List Char)
    (hd : ∀ c ∈ ds, isDigitC c = true)
    (hr : spanDigits rest = ([], rest)) :
    spanDigits (ds ++ rest) = (ds, rest) := by
  induction ds with
  | nil => simpa using hr
  | cons c t ih =>
      have hc : isDigitC c = true := hd c (by simp)
      have ht := ih fun x hx => hd x (by simp [hx])
      simp [spanDigits, hc, ht]

theorem restOk_not_digit (rest : List Char) (h : restOk rest = true) :
    ∀ c t, rest = c :: t → isDigitC c = false := by
  rintro c t rfl
  simp only [restOk, Bool.or_eq_true, decide_eq_true_eq] at h
  rcases h with rfl | rfl <;> decide

theorem parseNat_natChars (n : Nat) (rest : List Char) (hr : restOk rest = true) :
    parseNatChars (natChars n ++ rest) = some (n, rest) := by
  have hspan := spanDigits_append (natChars n) rest (natChars_digits n)
    (spanDigits_stop rest (restOk_not_digit rest hr))
  obtain ⟨d, ds, hds⟩ : ∃ d ds, natChars n = d :: ds := by
    cases hh : natChars n with
    | nil => exact absurd hh (natChars_ne_nil n)
    | cons a b => exact ⟨a, b, rfl⟩
  rw [hds] at hspan
  rw [hds]
  simp only [List.cons_append] at hspan
  simp only [parseNatChars, List.cons_append, hspan]
  have hnolead : ¬(d = '0' ∧ ds ≠ []) := by
    rintro ⟨rfl, hne⟩
    by_cases hn0 : n = 0
    · subst hn0
      simp only [show natChars 0 = ['0'] from rfl, List.cons.injEq] at hds
      exact hne hds.2.symm
    · exact natChars_head_ne_zero n hn0 '0' ds hds rfl
  rw [if_neg hnolead]
  have hval := digitsToNat_natChars n
  rw [hds] at hval
  rw [hval]

/-! ### Head characters of printed values -/

theorem ws_not_digit (d : Char) (h : isDigitC d = true) : isWsC d = false := by
  by_contra hw
  have hw' : isWsC d = true := by simpa using hw
  simp only [isWsC, Bool.or_eq_true, beq_iff_eq] at hw'
  rcases hw' with ((rfl | rfl) | rfl) | rfl <;> revert h <;> decide

theorem digit_ne (d : Char) (hd : isDigitC d = true) (c : Char)
    (hc : isDigitC c = false) : d ≠ c := by
  rintro rfl
  rw [hd] at hc
  cases hc

theorem ppL_head (k : Nat) (v : JValue) :
    ∃ c t, ppL k v = c :: t ∧ isWsC c = false ∧ c ≠ ']' ∧ c ≠ rbk := by
  cases v with
  | undef => refine ⟨'n', _, rfl, ?_, ?_, ?_⟩ <;> decide
  | null => refine ⟨'n', _, rfl, ?_, ?_, ?_⟩ <;> decide
  | bool b =>
      cases b with
      | true => refine ⟨'t', _, rfl, ?_, ?_, ?_⟩ <;> decide
      | false => refine ⟨'f', _, rfl, ?_, ?_, ?_⟩ <;> decide
  | str s =>
      refine ⟨'"', escL s.toList ++ ['"'], by simp [ppL, quoteL], ?_, ?_, ?_⟩ <;>
        decide
  | arr es =>
      cases es with
      | nil => refine ⟨'[', _, rfl, ?_, ?_, ?_⟩ <;> decide
      | cons e t => refine ⟨'[', _, rfl, ?_, ?_, ?_⟩ <;> decide
  | obj ms =>
      cases ms with
      | nil => refine ⟨lbk, _, rfl, ?_, ?_, ?_⟩ <;> decide
      | cons m t => refine ⟨lbk, _, rfl, ?_, ?_, ?_⟩ <;> decide
  | num n =>
      by_cases hneg : n < 0
      · refine ⟨'-', natChars n.natAbs, ?_, by decide, by decide, by decide⟩
        simp [ppL, intChars, hneg]
      · obtain ⟨d, ds, hds⟩ : ∃ d ds, natChars n.natAbs = d :: ds := by
          cases hh : natChars n.natAbs with
          | nil => exact absurd hh (natChars_ne_nil _)
          | cons a b => exact ⟨a, b, rfl⟩
        have hd : isDigitC d = true := natChars_digits n.natAbs d (by rw [hds]; simp)
        exact ⟨d, ds, by simp [ppL, intChars, hneg, hds], ws_not_digit d hd,
          digit_ne d hd ']' (by decide), digit_ne d hd rbk (by decide)⟩

/-! ### Parser branch lemmas for non-literal head characters -/

theorem parseVal_digit (f : Nat) (d : Char) (r : List Char) (hd : isDigitC d = true) :
    parseVal (f + 1) (d :: r) =
      (match parseNatChars (d :: r) with
       | some (n, r1) => some (.num (n : Int), r1)
       | none => none) := by
  rw [parseVal, skipWs_cons_not d r (ws_not_digit d hd)]
  split
  · rename_i heq; exact absurd (List.cons.inj heq).1 (digit_ne d hd 'n' (by decide))
  · rename_i heq; exact absurd (List.cons.inj heq).1 (digit_ne d hd 't' (by decide))
  · rename_i heq; exact absurd (List.cons.inj heq).1 (digit_ne d hd 'f' (by decide))
  · rename_i heq; exact absurd (List.cons.inj heq).1 (digit_ne d hd '"' (by decide))
  · rename_i heq; exact absurd (List.cons.inj heq).1 (digit_ne d hd '[' (by decide))
  · rename_i heq; exact absurd (List.cons.inj heq).1 (digit_ne d hd '-' (by decide))
  · rename_i c2 r2 hc1 hc2 hc3 hc4 hc5 hc6 heq
    obtain ⟨rfl, rfl⟩ : d = c2 ∧ r = r2 :=
      ⟨(List.cons.inj heq).1, (List.cons.inj heq).2⟩
    rw [if_neg (digit_ne d hd lbk (by decide)), if_pos hd]
  · rename_i heq; cases heq

theorem parseVal_lbk (f : Nat) (r : List Char) :
    parseVal (f + 1) (lbk :: r) =
      (match skipWs r with
       | c1 :: r1 =>
           if c1 = rbk then some (.obj [], r1)
           else
             match parseMems f (c1 :: r1) with
             | some (ms, r2) => some (.obj (dedupMems ms), r2)
             | none => none
       | [] => none) := by
  have hlb : isWsC lbk = false := by decide
  rw [parseVal, skipWs_cons_not lbk r hlb]
  split
  · rename_i heq; exact absurd (List.cons.inj heq).1 (by decide)
  · rename_i heq; exact absurd (List.cons.inj heq).1 (by decide)
  · rename_i heq; exact absurd (List.cons.inj heq).1 (by decide)
  · rename_i heq; exact absurd (List.cons.inj heq).1 (by decide)
  · rename_i heq; exact absurd (List.cons.inj heq).1 (by decide)
  · rename_i heq; exact absurd (List.cons.inj heq).1 (by decide)
  · rename_i c2 r2 hc1 hc2 hc3 hc4 hc5 hc6 heq
    obtain ⟨rfl, rfl⟩ : lbk = c2 ∧ r = r2 :=
      ⟨(List.cons.inj heq).1, (List.cons.inj heq).2⟩
    rw [if_pos rfl]
  · rename_i heq; cases heq

/-- The value printed at the head of an element or member line absorbs the
leading whitespace. -/
theorem skipWs_ppL_append (k : Nat) (v : JValue) (X : List Char) :
    skipWs (ppL k v ++ X) = ppL k v ++ X := by
  obtain ⟨c, t, hpp, hws, -, -⟩ := ppL_head k v
  rw [hpp, List.cons_append, skipWs_cons_not c _ hws]

/-! ### Duplicate-free member lists pass through collapsing unchanged -/

theorem setKey_append_of_not_mem (ms : List (String × JValue)) (k : String)
    (v : JValue) (h : k ∉ ms.map Prod.fst) : setKey ms k v = ms ++ [(k, v)] := by
  induction ms with
  | nil => rfl
  | cons m rest ih =>
      obtain ⟨k2, w⟩ := m
      simp only [List.map_cons, List.mem_cons] at h
      push_neg at h
      have hne : ¬k2 = k := fun e => h.1 e.symm
      simp [setKey, hne, ih h.2]

theorem foldl_setKey_disjoint :
    ∀ (ms acc : List (String × JValue)),
      (∀ k ∈ ms.map Prod.fst, k ∉ acc.map Prod.fst) →
      (ms.map Prod.fst).Nodup →
      ms.foldl (fun a kv => setKey a kv.1 kv.2) acc = acc ++ ms := by
  intro ms
  induction ms with
  | nil => intro acc _ _; simp
  | cons m rest ih =>
      intro acc hdis hnd
      obtain ⟨k, v⟩ := m
      simp only [List.map_cons, List.nodup_cons] at hnd
      rw [List.foldl_cons]
      have hk : k ∉ acc.map Prod.fst := hdis k (by simp)
      rw [setKey_append_of_not_mem acc k v hk]
      rw [ih (acc ++ [(k, v)]) ?_ hnd.2]
      · simp
      · intro k2 hk2
        simp only [List.map_append, List.mem_append, List.map_cons]
        push_neg
        refine ⟨hdis k2 (by simp [hk2]), ?_⟩
        simp only [List.map_nil, List.mem_singleton]
        intro e
        subst e
        exact hnd.1 hk2

theorem dedupMems_self (ms : List (String × JValue))
    (h : (ms.map Prod.fst).Nodup) : dedupMems ms = ms := by
  unfold dedupMems
  rw [foldl_setKey_disjoint ms [] (by simp) h]
  simp

/-! ### Round trip: printed values reparse -/

theorem mk_toList (s : String) : String.mk s.toList = s := rfl

theorem restOk_comma (X : List Char) : restOk (',' :: X) = true := by simp [restOk]

theorem restOk_nl (X : List Char) : restOk ('\n' :: X) = true := by simp [restOk]

theorem scrubM_keys : ∀ ms : List (String × JValue),
    (scrubM ms).map Prod.fst = ms.map Prod.fst
  | [] => rfl
  | (k, v) :: ms => by simp [scrubM, scrubM_keys ms]

theorem parseVal_lbracket (f : Nat) (r : List Char) :
    parseVal (f + 1) ('[' :: r) =
      (match skipWs r with
       | ']' :: r1 => some (.arr [], r1)
       | _ =>
          match parseElems f r with
          | some (es, r1) => some (.arr es, r1)
          | none => none) := by
  rw [parseVal, skipWs_cons_not '[' r (by decide)]
  rfl

theorem skipWs_ppElems (k : Nat) (e : JValue) (es : List JValue) (X : List Char) :
    ∃ c t, skipWs (ppElemsL k (e :: es) ++ X) = c :: t ∧
      isWsC c = false ∧ c ≠ ']' ∧ c ≠ rbk := by
  obtain ⟨c, t, hpp, hws, hbr, hrb⟩ := ppL_head (k + 1) e
  cases es with
  | nil =>
      refine ⟨c, t ++ X, ?_, hws, hbr, hrb⟩
      show skipWs ((spL (2 * k + 2) ++ ppL (k + 1) e) ++ X) = _
      rw [List.append_assoc, skipWs_spL, hpp, List.cons_append,
        skipWs_cons_not c _ hws]
  | cons e2 es2 =>
      refine ⟨c, t ++ (',' :: '\n' :: ppElemsL k (e2 :: es2) ++ X), ?_, hws, hbr, hrb⟩
      show skipWs ((spL (2 * k + 2) ++ ppL (k + 1) e ++ ',' :: '\n' ::
        ppElemsL k (e2 :: es2)) ++ X) = _
      simp only [List.append_assoc, List.cons_append]
      rw [skipWs_spL, hpp, List.cons_append, skipWs_cons_not c _ hws]

theorem skipWs_ppMems (k : Nat) (m : String × JValue)
    (ms : List (String × JValue)) (X : List Char) :
    ∃ Z, skipWs (ppMemsL k (m :: ms) ++ X) = '"' :: Z := by
  obtain ⟨key, v⟩ := m
  cases ms with
  | nil =>
      refine ⟨escL key.toList ++ ('"' :: (':' :: ' ' :: ppL (k + 1) v ++ X)), ?_⟩
      show skipWs ((spL (2 * k + 2) ++ quoteL key ++ ':' :: ' ' :: ppL (k + 1) v) ++ X) = _
      simp only [quoteL, List.append_assoc, List.cons_append]
      rw [skipWs_spL, skipWs_cons_not '"' _ (by decide)]
      simp
  | cons m2 ms2 =>
      refine ⟨escL key.toList ++ ('"' :: (':' :: ' ' :: (ppL (k + 1) v ++
        (',' :: '\n' :: ppMemsL k (m2 :: ms2) ++ X)))), ?_⟩
      show skipWs ((spL (2 * k + 2) ++ quoteL key ++ ':' :: ' ' :: ppL (k + 1) v ++
        ',' :: '\n' :: ppMemsL k (m2 :: ms2)) ++ X) = _
      simp only [quoteL, List.append_assoc, List.cons_append]
      rw [skipWs_spL, skipWs_cons_not '"' _ (by decide)]
      simp

theorem wfSL_cons (e : JValue) (es : List JValue) :
    wfSL (e :: es) = true ↔ wfS e = true ∧ wfSL es = true := by
  show (wfS e && wfSL es) = true ↔ _
  simp [Bool.and_eq_true]

theorem wfSM_cons (key : String) (v : JValue) (ms : List (String × JValue)) :
    wfSM ((key, v) :: ms) = true ↔
      wfStr key = true ∧ isUndef v = false ∧
        wfS v = true ∧ wfSM ms = true := by
  show (wfStr key && !isUndef v && wfS v && wfSM ms) = true ↔ _
  simp [Bool.and_eq_true, Bool.not_eq_true', and_assoc]

mutual

theorem rt_val : ∀ (v : JValue) (k fuel : Nat) (rest : List Char),
    wfS v = true → (ppL k v).length < fuel → restOk rest = true →
    parseVal fuel (ppL k v ++ rest) = some (scrub v, rest)
  | .undef, k, fuel, rest, _, hf, _ => by
      cases fuel with
      | zero => exact absurd hf (by omega)
      | succ f => simp [ppL, parseVal, skipWs, isWsC, scrub]
  | .null, k, fuel, rest, _, hf, _ => by
      cases fuel with
      | zero => exact absurd hf (by omega)
      | succ f => simp [ppL, parseVal, skipWs, isWsC, scrub]
  | .bool b, k, fuel, rest, _, hf, _ => by
      cases fuel with
      | zero => exact absurd hf (by omega)
      | succ f => cases b <;> simp [ppL, parseVal, skipWs, isWsC, scrub]
  | .num i, k, fuel, rest, _, hf, hr => by
      cases fuel with
      | zero => exact absurd hf (by omega)
      | succ f =>
          by_cases hneg : i < 0
          · have harg : ppL k (.num i) ++ rest = '-' :: (natChars i.natAbs ++ rest) := by
              simp [ppL, intChars, hneg]
            rw [harg, parseVal, skipWs_cons_not '-' _ (by decide)]
            show (match parseNatChars (natChars i.natAbs ++ rest) with
              | some (n, r1) => some (JValue.num (-(n : Int)), r1)
              | none => none) = _
            rw [parseNat_natChars i.natAbs rest hr]
            have hi : -((i.natAbs : Nat) : Int) = i := by omega
            show some (JValue.num (-((i.natAbs : Nat) : Int)), rest) =
              some (scrub (JValue.num i), rest)
            rw [hi]
            rfl
          · obtain ⟨d, ds, hds⟩ : ∃ d ds, natChars i.natAbs = d :: ds := by
              cases hh : natChars i.natAbs with
              | nil => exact absurd hh (natChars_ne_nil _)
              | cons a b => exact ⟨a, b, rfl⟩
            have hd : isDigitC d = true := natChars_digits i.natAbs d (by rw [hds]; simp)
            have harg : ppL k (.num i) ++ rest = d :: (ds ++ rest) := by
              simp [ppL, intChars, hneg, hds]
            rw [harg, parseVal_digit f d _ hd]
            have harg2 : d :: (ds ++ rest) = natChars i.natAbs ++ rest := by
              rw [hds]; simp
            rw [harg2, parseNat_natChars i.natAbs rest hr]
            have hi : ((i.natAbs : Nat) : Int) = i := by omega
            show some (JValue.num ((i.natAbs : Nat) : Int), rest) =
              some (scrub (JValue.num i), rest)
            rw [hi]
            rfl
  | .str s, k, fuel, rest, hw, hf, _ => by
      cases fuel with
      | zero => exact absurd hf (by omega)
      | succ f =>
          have harg : ppL k (.str s) ++ rest =
              '"' :: (escL s.toList ++ '"' :: rest) := by
            simp [ppL, quoteL]
          rw [harg, parseVal, skipWs_cons_not '"' _ (by decide)]
          show (match parseStrChars (escL s.toList ++ '"' :: rest) with
            | some (l, r1) => some (JValue.str (String.mk l), r1)
            | none => none) = _
          rw [parseStr_escL s.toList rest (by simpa [wfS, wfStr] using hw)]
          simp [scrub, mk_toList]
  | .arr [], k, fuel, rest, _, hf, _ => by
      cases fuel with
      | zero => exact absurd hf (by omega)
      | succ f => simp [ppL, parseVal, skipWs, isWsC, scrub, scrubL]
  | .arr (e :: es), k, fuel, rest, hw, hf, _ => by
      cases fuel with
      | zero => exact absurd hf (by omega)
      | succ f =>
          have hwl : wfSL (e :: es) = true := by simpa [wfS] using hw
          have hlen : (ppL k (.arr (e :: es))).length =
              (ppElemsL k (e :: es)).length + 2 * k + 4 := by
            simp [ppL, spL]
            omega
          have hfe : (ppElemsL k (e :: es)).length + 1 < f := by omega
          have harg : ppL k (.arr (e :: es)) ++ rest =
              '[' :: ('\n' :: (ppElemsL k (e :: es) ++
                '\n' :: (spL (2 * k) ++ ']' :: rest))) := by
            simp [ppL]
          rw [harg, parseVal_lbracket]
          obtain ⟨c, t, hskip, -, hbr, -⟩ :=
            skipWs_ppElems k e es ('\n' :: (spL (2 * k) ++ ']' :: rest))
          rw [skipWs_cons_ws '\n' _ (by decide), hskip]
          have hcongr : parseElems f ('\n' :: (ppElemsL k (e :: es) ++
              '\n' :: (spL (2 * k) ++ ']' :: rest))) =
            parseElems f (ppElemsL k (e :: es) ++
              '\n' :: (spL (2 * k) ++ ']' :: rest)) :=
            parseElems_eq_of_skipWs f _ _ (skipWs_cons_ws '\n' _ (by decide))
          split
          · rename_i r1 heq
            exact absurd (List.cons.inj heq).1 hbr
          · rw [hcongr, rt_elems e es k f rest hwl hfe]
            simp [scrub]
  | .obj [], k, fuel, rest, _, hf, _ => by
      cases fuel with
      | zero => exact absurd hf (by omega)
      | succ f =>
          have harg : ppL k (.obj []) ++ rest = lbk :: rbk :: rest := by
            simp [ppL]
          rw [harg, parseVal_lbk, skipWs_cons_not rbk _ (by decide)]
          simp [scrub, scrubM]
  | .obj (m :: ms), k, fuel, rest, hw, hf, _ => by
      cases fuel with
      | zero => exact absurd hf (by omega)
      | succ f =>
          have hwm : wfSM (m :: ms) = true := by
            have := hw
            simp only [wfS, Bool.and_eq_true] at this
            exact this.1
          have hnd : ((m :: ms).map Prod.fst).Nodup := by
            have := hw
            simp only [wfS, Bool.and_eq_true, decide_eq_true_eq] at this
            exact this.2
          have hlen : (ppL k (.obj (m :: ms))).length =
              (ppMemsL k (m :: ms)).length + 2 * k + 4 := by
            simp [ppL, spL]
            omega
          have hfm : (ppMemsL k (m :: ms)).length + 1 < f := by omega
          have harg : ppL k (.obj (m :: ms)) ++ rest =
              lbk :: ('\n' :: (ppMemsL k (m :: ms) ++
                '\n' :: (spL (2 * k) ++ rbk :: rest))) := by
            simp [ppL]
          rw [harg, parseVal_lbk]
          obtain ⟨Z, hZ⟩ := skipWs_ppMems k m ms ('\n' :: (spL (2 * k) ++ rbk :: rest))
          rw [skipWs_cons_ws '\n' _ (by decide), hZ]
          show (if ('"' : Char) = rbk then some (JValue.obj [], Z)
            else
              match parseMems f ('"' :: Z) with
              | some (ms2, r2) => some (JValue.obj (dedupMems ms2), r2)
              | none => none) = some (scrub (JValue.obj (m :: ms)), rest)
          rw [if_neg (by decide : ¬('"' = rbk))]
          have hcongr : parseMems f ('"' :: Z) =
              parseMems f (ppMemsL k (m :: ms) ++
                '\n' :: (spL (2 * k) ++ rbk :: rest)) := by
            refine parseMems_eq_of_skipWs f _ _ ?_
            rw [skipWs_cons_not '"' _ (by decide), ← hZ]
          rw [hcongr, rt_mems m ms k f rest hwm hfm]
          have hndscrub : ((scrubM (m :: ms)).map Prod.fst).Nodup := by
            rw [scrubM_keys]; exact hnd
          simp [scrub, dedupMems_self _ hndscrub]
  termination_by v => sizeOf v

theorem rt_elems : ∀ (e : JValue) (es : List JValue) (k fuel : Nat) (rest : List Char),
    wfSL (e :: es) = true → (ppElemsL k (e :: es)).length + 1 < fuel →
    parseElems fuel (ppElemsL k (e :: es) ++
      '\n' :: (spL (2 * k) ++ ']' :: rest)) = some (scrubL (e :: es), rest)
  | e, [], k, fuel, rest, hw, hf => by
      cases fuel with
      | zero => exact absurd hf (by omega)
      | succ f =>
          have hwe : wfS e = true := by simpa [wfSL] using hw
          have hfe : (ppL (k + 1) e).length < f := by
            have : (ppElemsL k [e]).length = 2 * k + 2 + (ppL (k + 1) e).length := by
              simp [ppElemsL, spL]
            omega
          have harg : ppElemsL k [e] ++ '\n' :: (spL (2 * k) ++ ']' :: rest) =
              spL (2 * k + 2) ++ (ppL (k + 1) e ++
                '\n' :: (spL (2 * k) ++ ']' :: rest)) := by
            simp [ppElemsL]
          rw [harg, parseElems]
          rw [parseVal_eq_of_skipWs f _ (ppL (k + 1) e ++
            '\n' :: (spL (2 * k) ++ ']' :: rest)) (skipWs_spL _ _)]
          rw [rt_val e (k + 1) f ('\n' :: (spL (2 * k) ++ ']' :: rest)) hwe hfe
            (restOk_nl _)]
          show (match skipWs ('\n' :: (spL (2 * k) ++ ']' :: rest)) with
            | ',' :: r1 =>
                (match parseElems f r1 with
                 | some (vs, r2) => some (scrub e :: vs, r2)
                 | none => none)
            | ']' :: r1 => some ([scrub e], r1)
            | _ => none) = _
          rw [skipWs_cons_ws '\n' _ (by decide), skipWs_spL,
            skipWs_cons_not ']' _ (by decide)]
          rfl
  | e, e2 :: es2, k, fuel, rest, hw, hf => by
      cases fuel with
      | zero => exact absurd hf (by omega)
      | succ f =>
          obtain ⟨hwe, hwl⟩ := (wfSL_cons e (e2 :: es2)).mp hw
          have hlen : (ppElemsL k (e :: e2 :: es2)).length =
              2 * k + 2 + (ppL (k + 1) e).length + 2 +
                (ppElemsL k (e2 :: es2)).length := by
            simp [ppElemsL, spL]
            omega
          have hfe : (ppL (k + 1) e).length < f := by omega
          have hft : (ppElemsL k (e2 :: es2)).length + 1 < f := by omega
          have harg : ppElemsL k (e :: e2 :: es2) ++
              '\n' :: (spL (2 * k) ++ ']' :: rest) =
              spL (2 * k + 2) ++ (ppL (k + 1) e ++
                ',' :: '\n' :: (ppElemsL k (e2 :: es2) ++
                  '\n' :: (spL (2 * k) ++ ']' :: rest))) := by
            simp [ppElemsL]
          rw [harg, parseElems]
          rw [parseVal_eq_of_skipWs f _ (ppL (k + 1) e ++
            ',' :: '\n' :: (ppElemsL k (e2 :: es2) ++
              '\n' :: (spL (2 * k) ++ ']' :: rest))) (skipWs_spL _ _)]
          rw [rt_val e (k + 1) f _ hwe hfe (restOk_comma _)]
          show (match skipWs (',' :: '\n' :: (ppElemsL k (e2 :: es2) ++
              '\n' :: (spL (2 * k) ++ ']' :: rest))) with
            | ',' :: r1 =>
                (match parseElems f r1 with
                 | some (vs, r2) => some (scrub e :: vs, r2)
                 | none => none)
            | ']' :: r1 => some ([scrub e], r1)
            | _ => none) = _
          rw [skipWs_cons_not ',' _ (by decide)]
          show (match parseElems f ('\n' :: (ppElemsL k (e2 :: es2) ++
              '\n' :: (spL (2 * k) ++ ']' :: rest))) with
            | some (vs, r2) => some (scrub e :: vs, r2)
            | none => none) = _
          rw [parseElems_eq_of_skipWs f _ (ppElemsL k (e2 :: es2) ++
            '\n' :: (spL (2 * k) ++ ']' :: rest)) (skipWs_cons_ws '\n' _ (by decide))]
          rw [rt_elems e2 es2 k f rest hwl hft]
          rfl
  termination_by e es => sizeOf e + sizeOf es

theorem rt_mems : ∀ (m : String × JValue) (ms : List (String × JValue))
    (k fuel : Nat) (rest : List Char),
    wfSM (m :: ms) = true → (ppMemsL k (m :: ms)).length + 1 < fuel →
    parseMems fuel (ppMemsL k (m :: ms) ++
      '\n' :: (spL (2 * k) ++ rbk :: rest)) = some (scrubM (m :: ms), rest)
  | (key, v), [], k, fuel, rest, hw, hf => by
      cases fuel with
      | zero => exact absurd hf (by omega)
      | succ f =>
          obtain ⟨hwk, -, hwv, -⟩ := (wfSM_cons key v []).mp hw
          have hfe : (ppL (k + 1) v).length < f := by
            have : (ppMemsL k [(key, v)]).length =
                2 * k + 2 + (quoteL key).length + 2 + (ppL (k + 1) v).length := by
              simp [ppMemsL, spL]
              omega
            omega
          have harg : ppMemsL k [(key, v)] ++ '\n' :: (spL (2 * k) ++ rbk :: rest) =
              spL (2 * k + 2) ++ ('"' :: (escL key.toList ++
                '"' :: (':' :: (' ' :: (ppL (k + 1) v ++
                  '\n' :: (spL (2 * k) ++ rbk :: rest)))))) := by
            simp [ppMemsL, quoteL]
          rw [harg, parseMems, skipWs_spL, skipWs_cons_not '"' _ (by decide)]
          show (match parseStrChars (escL key.toList ++
              '"' :: (':' :: (' ' :: (ppL (k + 1) v ++
                '\n' :: (spL (2 * k) ++ rbk :: rest))))) with
            | none => none
            | some (kl, r1) => _) = _
          rw [parseStr_escL key.toList _ (by simpa [wfStr] using hwk)]
          show (match skipWs (':' :: (' ' :: (ppL (k + 1) v ++
              '\n' :: (spL (2 * k) ++ rbk :: rest)))) with
            | ':' :: r2 => _
            | _ => none) = _
          rw [skipWs_cons_not ':' _ (by decide)]
          show (match parseVal f (' ' :: (ppL (k + 1) v ++
              '\n' :: (spL (2 * k) ++ rbk :: rest))) with
            | none => none
            | some (w, r3) => _) = _
          rw [parseVal_eq_of_skipWs f _ (ppL (k + 1) v ++
            '\n' :: (spL (2 * k) ++ rbk :: rest)) (skipWs_cons_ws ' ' _ (by decide))]
          rw [rt_val v (k + 1) f _ hwv hfe (restOk_nl _)]
          show (match skipWs ('\n' :: (spL (2 * k) ++ rbk :: rest)) with
            | ',' :: r4 => _
            | c :: r4 => if c = rbk then some ([(String.mk key.toList, scrub v)], r4) else none
            | [] => none) = _
          rw [skipWs_cons_ws '\n' _ (by decide), skipWs_spL,
            skipWs_cons_not rbk _ (by decide)]
          split
          · rename_i r4 heq
            exact absurd (List.cons.inj heq).1.symm (by decide)
          · rename_i c r4 hnc heq
            obtain ⟨rfl, rfl⟩ : rbk = c ∧ rest = r4 :=
              ⟨(List.cons.inj heq).1, (List.cons.inj heq).2⟩
            rw [if_pos rfl, mk_toList]
            rfl
          · rename_i heq; cases heq
  | (key, v), m2 :: ms2, k, fuel, rest, hw, hf => by
      cases fuel with
      | zero => exact absurd hf (by omega)
      | succ f =>
          obtain ⟨hwk, -, hwv, hwt⟩ := (wfSM_cons key v (m2 :: ms2)).mp hw
          have hlen : (ppMemsL k ((key, v) :: m2 :: ms2)).length =
              2 * k + 2 + (quoteL key).length + 2 + (ppL (k + 1) v).length + 2 +
                (ppMemsL k (m2 :: ms2)).length := by
            simp [ppMemsL, spL]
            omega
          have hfe : (ppL (k + 1) v).length < f := by omega
          have hft : (ppMemsL k (m2 :: ms2)).length + 1 < f := by omega
          have harg : ppMemsL k ((key, v) :: m2 :: ms2) ++
              '\n' :: (spL (2 * k) ++ rbk :: rest) =
              spL (2 * k + 2) ++ ('"' :: (escL key.toList ++
                '"' :: (':' :: (' ' :: (ppL (k + 1) v ++
                  ',' :: ('\n' :: (ppMemsL k (m2 :: ms2) ++
                    '\n' :: (spL (2 * k) ++ rbk :: rest)))))))) := by
            simp [ppMemsL, quoteL]
          rw [harg, parseMems, skipWs_spL, skipWs_cons_not '"' _ (by decide)]
          show (match parseStrChars (escL key.toList ++
              '"' :: (':' :: (' ' :: (ppL (k + 1) v ++
                ',' :: ('\n' :: (ppMemsL k (m2 :: ms2) ++
                  '\n' :: (spL (2 * k) ++ rbk :: rest))))))) with
            | none => none
            | some (kl, r1) => _) = _
          rw [parseStr_escL key.toList _ (by simpa [wfStr] using hwk)]
          show (match skipWs (':' :: (' ' :: (ppL (k + 1) v ++
              ',' :: ('\n' :: (ppMemsL k (m2 :: ms2) ++
                '\n' :: (spL (2 * k) ++ rbk :: rest)))))) with
            | ':' :: r2 => _
            | _ => none) = _
          rw [skipWs_cons_not ':' _ (by decide)]
          show (match parseVal f (' ' :: (ppL (k + 1) v ++
              ',' :: ('\n' :: (ppMemsL k (m2 :: ms2) ++
                '\n' :: (spL (2 * k) ++ rbk :: rest))))) with
            | none => none
            | some (w, r3) => _) = _
          rw [parseVal_eq_of_skipWs f _ (ppL (k + 1) v ++
            ',' :: ('\n' :: (ppMemsL k (m2 :: ms2) ++
              '\n' :: (spL (2 * k) ++ rbk :: rest)))) (skipWs_cons_ws ' ' _ (by decide))]
          rw [rt_val v (k + 1) f _ hwv hfe (restOk_comma _)]
          show (match skipWs (',' :: ('\n' :: (ppMemsL k (m2 :: ms2) ++
              '\n' :: (spL (2 * k) ++ rbk :: rest)))) with
            | ',' :: r4 =>
                (match parseMems f r4 with
                 | some (ms3, r5) => some ((String.mk key.toList, scrub v) :: ms3, r5)
                 | none => none)
            | c :: r4 => if c = rbk then some ([(String.mk key.toList, scrub v)], r4) else none
            | [] => none) = _
          rw [skipWs_cons_not ',' _ (by decide)]
          show (match parseMems f ('\n' :: (ppMemsL k (m2 :: ms2) ++
              '\n' :: (spL (2 * k) ++ rbk :: rest))) with
            | some (ms3, r5) => some ((String.mk key.toList, scrub v) :: ms3, r5)
            | none => none) = _
          rw [parseMems_eq_of_skipWs f _ (ppMemsL k (m2 :: ms2) ++
            '\n' :: (spL (2 * k) ++ rbk :: rest)) (skipWs_cons_ws '\n' _ (by decide))]
          rw [rt_mems m2 ms2 k f rest hwt hft, mk_toList]
          rfl
  termination_by m ms => sizeOf m + sizeOf ms

end

/-- Serializing any well-formed value yields text that reparses — to the
value itself with array holes read back as `null`. -/
theorem stringify_parses (v : JValue) (hwf : wfS v = true) :
    parse (stringify v) = some (scrub v) := by
  have h := rt_val v 0 ((ppL 0 v).length + 1) [] hwf (by omega) rfl
  rw [List.append_nil] at h
  show (match parseVal ((stringify v).length + 1) (stringify v).toList with
    | some (w, r) => if skipWs r = [] then some w else none
    | none => none) = _
  have hlen : (stringify v).length = (ppL 0 v).length := rfl
  have hlist : (stringify v).toList = ppL 0 v := rfl
  rw [hlen, hlist, h]
  rfl

/-! ### Well-formedness: what the parser produces and the operations keep -/

theorem wfS_obj (ms : List (String × JValue)) :
    wfS (.obj ms) = true ↔ wfSM ms = true ∧ (ms.map Prod.fst).Nodup := by
  show (wfSM ms && decide (ms.map Prod.fst).Nodup) = true ↔ _
  simp [Bool.and_eq_true]

theorem wfS_arr (es : List JValue) : wfS (.arr es) = true ↔ wfSL es = true := by
  constructor <;> exact fun h => h

theorem keys_setKey_mem (ms : List (String × JValue)) (k : String) (v : JValue)
    (h : k ∈ ms.map Prod.fst) :
    (setKey ms k v).map Prod.fst = ms.map Prod.fst := by
  induction ms with
  | nil => cases h
  | cons m rest ih =>
      obtain ⟨k2, w⟩ := m
      by_cases hk : k2 = k
      · subst hk; simp [setKey]
      · simp only [List.map_cons, List.mem_cons] at h
        rcases h with h | h
        · exact absurd h.symm hk
        · simp [setKey, hk, ih h]

theorem nodup_setKey (ms : List (String × JValue)) (k : String) (v : JValue)
    (h : (ms.map Prod.fst).Nodup) : ((setKey ms k v).map Prod.fst).Nodup := by
  by_cases hm : k ∈ ms.map Prod.fst
  · rw [keys_setKey_mem ms k v hm]; exact h
  · rw [setKey_append_of_not_mem ms k v hm]
    simp only [List.map_append, List.map_cons, List.map_nil]
    rw [List.nodup_append]
    refine ⟨h, by simp, ?_⟩
    intro a ha hb
    simp only [List.mem_singleton] at hb
    subst hb
    exact hm ha

theorem wfSM_setKey (ms : List (String × JValue)) (k : String) (v : JValue)
    (hm : wfSM ms = true) (hk : wfStr k = true) (hv : wfS v = true)
    (hu : isUndef v = false) : wfSM (setKey ms k v) = true := by
  induction ms with
  | nil =>
      show wfSM [(k, v)] = true
      exact (wfSM_cons k v []).mpr ⟨hk, hu, hv, rfl⟩
  | cons m rest ih =>
      obtain ⟨k2, w⟩ := m
      obtain ⟨h1, h2, h3, h4⟩ := (wfSM_cons k2 w rest).mp hm
      by_cases hke : k2 = k
      · subst hke
        have hset : setKey ((k2, w) :: rest) k2 v = (k2, v) :: rest := by
          simp [setKey]
        rw [hset]
        exact (wfSM_cons k2 v rest).mpr ⟨h1, hu, hv, h4⟩
      · have hset : setKey ((k2, w) :: rest) k v = (k2, w) :: setKey rest k v := by
          simp [setKey, hke]
        rw [hset]
        exact (wfSM_cons k2 w (setKey rest k v)).mpr ⟨h1, h2, h3, ih h4⟩

theorem findKey_wf (ms : List (String × JValue)) (k : String) (v : JValue)
    (hm : wfSM ms = true) (h : findKey ms k = some v) :
    wfS v = true ∧ isUndef v = false := by
  induction ms with
  | nil => cases h
  | cons m rest ih =>
      obtain ⟨k2, w⟩ := m
      obtain ⟨h1, h2, h3, h4⟩ := (wfSM_cons k2 w rest).mp hm
      rw [findKey] at h
      split at h
      · obtain rfl := Option.some.inj h
        exact ⟨h3, h2⟩
      · exact ih h4 h

theorem getD_wf : ∀ (es : List JValue) (n : Nat), wfSL es = true →
    wfS ((es[n]?).getD .undef) = true
  | [], n, _ => rfl
  | e :: rest, 0, h => by
      obtain ⟨h1, -⟩ := (wfSL_cons e rest).mp h
      simpa using h1
  | e :: rest, n + 1, h => by
      obtain ⟨-, h2⟩ := (wfSL_cons e rest).mp h
      simpa using getD_wf rest n h2

theorem jsGet_wf (root : JValue) (s : Seg) (h : wfS root = true) :
    wfS (jsGet root s) = true := by
  cases root with
  | arr es =>
      cases s with
      | idx n =>
          have heq : jsGet (.arr es) (.idx n) = (es[n]?).getD .undef := by
            simp [jsGet, List.getD_eq_getElem?_getD]
          rw [heq]
          exact getD_wf es n ((wfS_arr es).mp h)
      | key k => rfl
  | obj ms =>
      obtain ⟨hm, -⟩ := (wfS_obj ms).mp h
      show wfS ((findKey ms s.pkey).getD .undef) = true
      cases hf : findKey ms s.pkey with
      | none => rfl
      | some v => simpa using (findKey_wf ms s.pkey v hm hf).1
  | undef => rfl
  | null => rfl
  | bool b => rfl
  | num n => rfl
  | str s2 => rfl

theorem walk_wf (p : List Seg) : ∀ root : JValue, wfS root = true →
    wfS (walk root p) = true := by
  induction p with
  | nil => exact fun root h => h
  | cons s rest ih =>
      intro root h
      rw [walk_cons]
      exact ih (jsGet root s) (jsGet_wf root s h)

theorem wfSL_setPad : ∀ (es : List JValue) (n : Nat) (v : JValue),
    wfSL es = true → wfS v = true → wfSL (setPad es n v) = true
  | [], 0, v, _, hv => by
      show wfSL [v] = true
      exact (wfSL_cons v []).mpr ⟨hv, rfl⟩
  | [], n + 1, v, h, hv => by
      show wfSL (.undef :: setPad [] n v) = true
      exact (wfSL_cons _ _).mpr ⟨rfl, wfSL_setPad [] n v h hv⟩
  | e :: rest, 0, v, h, hv => by
      obtain ⟨-, h2⟩ := (wfSL_cons e rest).mp h
      exact (wfSL_cons v rest).mpr ⟨hv, h2⟩
  | e :: rest, n + 1, v, h, hv => by
      obtain ⟨h1, h2⟩ := (wfSL_cons e rest).mp h
      exact (wfSL_cons e _).mpr ⟨h1, wfSL_setPad rest n v h2 hv⟩

theorem assignS_wf (cur : JValue) (s : Seg) (v r : JValue)
    (hc : wfS cur = true) (hk : wfStr s.pkey = true) (hv : wfS v = true)
    (hu : isUndef v = false) (h : assignS cur s v = some r) :
    wfS r = true ∧ r.isContainer = true := by
  cases cur with
  | arr es =>
      cases s with
      | idx n =>
          obtain rfl := Option.some.inj h
          exact ⟨(wfS_arr _).mpr (wfSL_setPad es n v ((wfS_arr es).mp hc) hv), rfl⟩
      | key k =>
          obtain rfl := Option.some.inj h
          exact ⟨hc, rfl⟩
  | obj ms =>
      obtain ⟨hm, hnd⟩ := (wfS_obj ms).mp hc
      obtain rfl := Option.some.inj h
      exact ⟨(wfS_obj _).mpr ⟨wfSM_setKey ms s.pkey v hm hk hv hu,
        nodup_setKey ms s.pkey v hnd⟩, rfl⟩
  | undef => cases h
  | null => cases h
  | bool b => cases h
  | num n => cases h
  | str s2 => cases h

theorem container_not_undef (r : JValue) (h : r.isContainer = true) :
    isUndef r = false := by
  cases r <;> simp_all [JValue.isContainer, isUndef]

theorem mutateAt_wf : ∀ (p : List Seg) (cur v r : JValue),
    wfS cur = true → wfS v = true → isUndef v = false →
    (p.all fun s => wfStr s.pkey) = true →
    mutateAt cur p v = some r → wfS r = true ∧ r.isContainer = true
  | [], cur, v, r, _, _, _, _, h => by cases h
  | [last], cur, v, r, hc, hv, hu, hp, h => by
      have hk : wfStr last.pkey = true := by simpa using hp
      exact assignS_wf cur last v r hc hk hv hu h
  | s :: s2 :: more, cur, v, r, hc, hv, hu, hp, h => by
      have hks : wfStr s.pkey = true := by
        simp only [List.all_cons, Bool.and_eq_true] at hp
        exact hp.1
      have hpt : ((s2 :: more).all fun sg => wfStr sg.pkey) = true := by
        simp only [List.all_cons, Bool.and_eq_true] at hp
        simp [List.all_cons, hp.2.1, hp.2.2]
      cases cur with
      | undef => cases h
      | null => cases h
      | bool b =>
          simp only [mutateAt] at h
          obtain ⟨sub, hsub, hassign⟩ := Option.bind_eq_some.mp h
          obtain ⟨hws, hcs⟩ := mutateAt_wf (s2 :: more) _ v sub (by rfl) hv hu hpt hsub
          exact assignS_wf _ s sub r (by rfl) hks hws (container_not_undef sub hcs) hassign
      | num n =>
          simp only [mutateAt] at h
          obtain ⟨sub, hsub, hassign⟩ := Option.bind_eq_some.mp h
          obtain ⟨hws, hcs⟩ := mutateAt_wf (s2 :: more) _ v sub (by rfl) hv hu hpt hsub
          exact assignS_wf _ s sub r (by rfl) hks hws (container_not_undef sub hcs) hassign
      | str st =>
          simp only [mutateAt] at h
          obtain ⟨sub, hsub, hassign⟩ := Option.bind_eq_some.mp h
          obtain ⟨hws, hcs⟩ := mutateAt_wf (s2 :: more) _ v sub (by rfl) hv hu hpt hsub
          exact assignS_wf _ s sub r hc hks hws (container_not_undef sub hcs) hassign
      | arr es =>
          simp only [mutateAt] at h
          obtain ⟨sub, hsub, hassign⟩ := Option.bind_eq_some.mp h
          obtain ⟨hws, hcs⟩ := mutateAt_wf (s2 :: more) _ v sub
            (jsGet_wf (.arr es) s hc) hv hu hpt hsub
          exact assignS_wf _ s sub r hc hks hws (container_not_undef sub hcs) hassign
      | obj ms =>
          simp only [mutateAt] at h
          obtain ⟨sub, hsub, hassign⟩ := Option.bind_eq_some.mp h
          obtain ⟨hws, hcs⟩ := mutateAt_wf (s2 :: more) _ v sub
            (jsGet_wf (.obj ms) s hc) hv hu hpt hsub
          exact assignS_wf _ s sub r hc hks hws (container_not_undef sub hcs) hassign

/-! ### The parser only produces well-formed values -/

theorem unescC_ok (e u : Char) (h : unescC e = some u) : decide (okChar u) = true := by
  simp only [unescC] at h
  split at h <;> first
    | (obtain rfl := Option.some.inj h; decide)
    | cases h

theorem parseStrChars_wf_aux : ∀ (n : Nat) (cs l r : List Char), cs.length ≤ n →
    parseStrChars cs = some (l, r) → (l.all fun c => decide (okChar c)) = true := by
  intro n
  induction n with
  | zero =>
      intro cs l r hlen h
      cases cs with
      | nil => cases h
      | cons c t => simp at hlen
  | succ n ih =>
      intro cs l r hlen h
      rw [parseStrChars.eq_def] at h
      split at h
      · rename_i e r1
        split at h
        · rename_i u hu
          obtain ⟨⟨l2, r2⟩, hrec, heq⟩ := Option.map_eq_some'.mp h
          obtain ⟨rfl, rfl⟩ : u :: l2 = l ∧ r2 = r := by simpa using heq
          simp only [List.all_cons, Bool.and_eq_true]
          refine ⟨unescC_ok e u hu, ?_⟩
          refine ih r1 l2 r2 ?_ hrec
          simp only [List.length_cons] at hlen
          omega
        · cases h
      · obtain ⟨rfl, rfl⟩ : ([] : List Char) = l ∧ _ = r := by simpa using h
        rfl
      · rename_i c r0 hn1 hn2
        split at h
        · obtain ⟨⟨l2, r2⟩, hrec, heq⟩ := Option.map_eq_some'.mp h
          obtain ⟨rfl, rfl⟩ : c :: l2 = l ∧ r2 = r := by simpa using heq
          rename_i hge
          simp only [List.all_cons, Bool.and_eq_true]
          refine ⟨by simp [okChar, hge], ?_⟩
          refine ih r0 l2 r2 ?_ hrec
          simp only [List.length_cons] at hlen
          omega
        · cases h
      · cases h

theorem parseStrChars_wf (cs l r : List Char) (h : parseStrChars cs = some (l, r)) :
    (l.all fun c => decide (okChar c)) = true :=
  parseStrChars_wf_aux cs.length cs l r le_rfl h

theorem foldl_setKey_wf : ∀ (ms acc : List (String × JValue)), wfSM ms = true →
    wfSM acc = true → ((acc.map Prod.fst)).Nodup →
    wfSM (ms.foldl (fun a kv => setKey a kv.1 kv.2) acc) = true ∧
      (((ms.foldl (fun a kv => setKey a kv.1 kv.2) acc).map Prod.fst)).Nodup := by
  intro ms2
  induction ms2 with
  | nil => intro acc _ ha hn; exact ⟨ha, hn⟩
  | cons m rest ih =>
      intro acc hm ha hn
      obtain ⟨k, v⟩ := m
      obtain ⟨h1, h2, h3, h4⟩ := (wfSM_cons k v rest).mp hm
      rw [List.foldl_cons]
      exact ih (setKey acc k v) h4 (wfSM_setKey acc k v ha h1 h3 h2)
        (nodup_setKey acc k v hn)

theorem dedupMems_wf (ms : List (String × JValue)) (h : wfSM ms = true) :
    wfSM (dedupMems ms) = true ∧ ((dedupMems ms).map Prod.fst).Nodup :=
  foldl_setKey_wf ms [] h rfl (by simp)

mutual

theorem parseVal_wf : ∀ (f : Nat) (cs : List Char) (v : JValue) (r : List Char),
    parseVal f cs = some (v, r) → wfS v = true ∧ isUndef v = false
  | 0, cs, v, r, h => by cases h
  | f + 1, cs, v, r, h => by
      simp only [parseVal] at h
      split at h
      · obtain ⟨rfl, rfl⟩ : JValue.null = v ∧ _ = r := by simpa using h
        exact ⟨rfl, rfl⟩
      · obtain ⟨rfl, rfl⟩ : JValue.bool true = v ∧ _ = r := by simpa using h
        exact ⟨rfl, rfl⟩
      · obtain ⟨rfl, rfl⟩ : JValue.bool false = v ∧ _ = r := by simpa using h
        exact ⟨rfl, rfl⟩
      · split at h
        · rename_i l2 r2 heq
          obtain ⟨rfl, rfl⟩ : JValue.str (String.mk l2) = v ∧ r2 = r := by
            simpa using h
          refine ⟨?_, rfl⟩
          show wfStr (String.mk l2) = true
          exact parseStrChars_wf _ l2 r2 heq
        · cases h
      · split at h
        · obtain ⟨rfl, rfl⟩ : JValue.arr [] = v ∧ _ = r := by simpa using h
          exact ⟨rfl, rfl⟩
        · split at h
          · rename_i es2 r2 heq
            obtain ⟨rfl, rfl⟩ : JValue.arr es2 = v ∧ r2 = r := by simpa using h
            exact ⟨parseElems_wf _ _ es2 r2 heq, rfl⟩
          · cases h
      · split at h
        · rename_i n2 r2 heq
          obtain ⟨rfl, rfl⟩ : JValue.num (-(n2 : Int)) = v ∧ r2 = r := by simpa using h
          exact ⟨rfl, rfl⟩
        · cases h
      · split at h
        · split at h
          · split at h
            · obtain ⟨rfl, rfl⟩ : JValue.obj [] = v ∧ _ = r := by simpa using h
              exact ⟨(wfS_obj []).mpr ⟨rfl, by simp⟩, rfl⟩
            · split at h
              · rename_i ms2 r2 heq
                obtain ⟨rfl, rfl⟩ : JValue.obj (dedupMems ms2) = v ∧ r2 = r := by
                  simpa using h
                have hms := parseMems_wf _ _ ms2 r2 heq
                obtain ⟨hw, hnd⟩ := dedupMems_wf ms2 hms
                exact ⟨(wfS_obj _).mpr ⟨hw, hnd⟩, rfl⟩
              · cases h
          · cases h
        · split at h
          · split at h
            · rename_i n2 r2 heq
              obtain ⟨rfl, rfl⟩ : JValue.num (n2 : Int) = v ∧ r2 = r := by simpa using h
              exact ⟨rfl, rfl⟩
            · cases h
          · cases h
      · cases h

theorem parseElems_wf : ∀ (f : Nat) (cs : List Char) (es : List JValue) (r : List Char),
    parseElems f cs = some (es, r) → wfSL es = true
  | 0, cs, es, r, h => by cases h
  | f + 1, cs, es, r, h => by
      simp only [parseElems] at h
      split at h
      · cases h
      · rename_i v2 r2 heq
        split at h
        · split at h
          · rename_i es2 r3 heq2
            obtain ⟨rfl, rfl⟩ : v2 :: es2 = es ∧ r3 = r := by simpa using h
            exact (wfSL_cons v2 es2).mpr
              ⟨(parseVal_wf f cs v2 r2 heq).1, parseElems_wf _ _ es2 r3 heq2⟩
          · cases h
        · obtain ⟨rfl, rfl⟩ : [v2] = es ∧ _ = r := by simpa using h
          exact (wfSL_cons v2 []).mpr ⟨(parseVal_wf f cs v2 r2 heq).1, rfl⟩
        · cases h

theorem parseMems_wf : ∀ (f : Nat) (cs : List Char) (ms : List (String × JValue))
    (r : List Char), parseMems f cs = some (ms, r) → wfSM ms = true
  | 0, cs, ms, r, h => by cases h
  | f + 1, cs, ms, r, h => by
      simp only [parseMems] at h
      split at h
      · rename_i r0 hsk0
        split at h
        · cases h
        · rename_i kl r1 heq
          split at h
          · rename_i r2 hsk2
            split at h
            · cases h
            · rename_i w r3 heq2
              split at h
              · rename_i r4 hsk4
                split at h
                · rename_i ms2 r5 heq3
                  obtain ⟨rfl, rfl⟩ : (String.mk kl, w) :: ms2 = ms ∧ r5 = r := by
                    simpa using h
                  obtain ⟨hwv, hund⟩ := parseVal_wf f r2 w r3 heq2
                  exact (wfSM_cons (String.mk kl) w ms2).mpr
                    ⟨parseStrChars_wf _ kl r1 heq, hund, hwv, parseMems_wf _ _ ms2 r5 heq3⟩
                · cases h
              · rename_i c r4 hnc heqc
                split at h
                · obtain ⟨rfl, rfl⟩ : [(String.mk kl, w)] = ms ∧ r4 = r := by
                    simpa using h
                  obtain ⟨hwv, hund⟩ := parseVal_wf f r2 w r3 heq2
                  exact (wfSM_cons (String.mk kl) w []).mpr
                    ⟨parseStrChars_wf _ kl r1 heq, hund, hwv, rfl⟩
                · cases h
              · cases h
          · cases h
      · cases h

end

/-- Whatever `JSON.parse` accepts is well-formed and defined. -/
theorem parse_wf (s : String) (v : JValue) (h : parse s = some v) :
    wfS v = true ∧ isUndef v = false := by
  simp only [parse] at h
  split at h
  · rename_i w r heq
    split at h
    · obtain rfl := Option.some.inj h
      exact parseVal_wf _ _ w r heq
    · cases h
  · cases h

/-! ### Well-formedness of the commit pipeline and claim C5 -/

theorem coerce_wf (content : String) (h : wfStr content = true) :
    wfS (coerceInputValue content) = true ∧
      isUndef (coerceInputValue content) = false := by
  unfold coerceInputValue
  split
  · exact ⟨rfl, rfl⟩
  · split
    · rename_i v hv
      exact parse_wf _ v hv
    · exact ⟨h, rfl⟩

theorem merge_wf (old new : JValue) (ho : wfS old = true) (hn : wfS new = true)
    (hu : isUndef new = false) :
    wfS (mergePolicy old new) = true ∧ isUndef (mergePolicy old new) = false := by
  cases old with
  | obj oms =>
      cases new with
      | obj pms =>
          obtain ⟨hom, hond⟩ := (wfS_obj oms).mp ho
          obtain ⟨hpm, -⟩ := (wfS_obj pms).mp hn
          show wfS (.obj (pms.foldl (fun acc kv => setKey acc kv.1 kv.2) oms)) = true ∧
            isUndef (.obj (pms.foldl (fun acc kv => setKey acc kv.1 kv.2) oms)) = false
          obtain ⟨hw, hnd⟩ := foldl_setKey_wf pms oms hpm hom hond
          exact ⟨(wfS_obj _).mpr ⟨hw, hnd⟩, rfl⟩
      | undef => exact ⟨hn, hu⟩
      | null => exact ⟨hn, hu⟩
      | bool b => exact ⟨hn, hu⟩
      | num n => exact ⟨hn, hu⟩
      | str st => exact ⟨hn, hu⟩
      | arr es => exact ⟨hn, hu⟩
  | undef => exact ⟨hn, hu⟩
  | null => exact ⟨hn, hu⟩
  | bool b => exact ⟨hn, hu⟩
  | num n => exact ⟨hn, hu⟩
  | str st => exact ⟨hn, hu⟩
  | arr es => exact ⟨hn, hu⟩

/-- Whenever the document parses, the rewritten document text parses too:
path-empty and successful-mutation commits serialize a well-formed value,
and a failed mutation returns the still-parsable original. -/
theorem write_parses (json : String) (d : JValue) (p : List Seg) (v : JValue)
    (hd : parse json = some d) (hv : wfS v = true) (hu : isUndef v = false)
    (hp : (p.all fun seg => wfStr seg.pkey) = true) :
    ∃ w, parse (writeJsonAtPath json p v) = some w := by
  cases p with
  | nil =>
      simp only [writeJsonAtPath, hd]
      exact ⟨scrub v, stringify_parses v hv⟩
  | cons s rest =>
      simp only [writeJsonAtPath, hd]
      cases hm : mutateAt d (s :: rest) v with
      | none => exact ⟨d, hd⟩
      | some r =>
          obtain ⟨hwr, -⟩ :=
            mutateAt_wf (s :: rest) d v r (parse_wf json d hd).1 hv hu hp hm
          exact ⟨scrub r, stringify_parses r hwr⟩

/-- The concrete end-to-end document and its expected commit output. -/
def docAlice : String := "\x7b\"user\":\x7b\"name\":\"Alice\",\"age\":30\x7d\x7d"

/-- The serialized result of the end-to-end scenario, in the fixed
two-space pretty format. -/
def prettyAlice31 : String :=
  "\x7b\n  \"user\": \x7b\n    \"name\": \"Alice\",\n    \"age\": 31\n  \x7d\n\x7d"

/-- Claim C5: after every commit over a parsable document, the text-buffer
store and the parsed-JSON store hold the same text, that text parses, and
the graph store holds exactly its parsed value — all three stores reflect
one JSON value (reflection read through the canonical parse, so fixed
pretty-printing whitespace does not matter).  In particular, committing
proposed text `31` at path `["user","age"]` over
`\x7b"user":\x7b"name":"Alice","age":30\x7d\x7d` leaves every store
reflecting `\x7b"user":\x7b"name":"Alice","age":31\x7d\x7d`.  (The two
hypotheses beyond document parsability keep the draft text and the path
keys inside the printable string model.) -/
theorem C5_sync :
    (∀ (s : Stores) (draft : String) (p : List Seg) (d : JValue),
        parse s.jsonStr = some d → wfStr draft = true →
        (p.all fun seg => wfStr seg.pkey) = true →
        (commitEdit draft p s).alerted = false ∧
        (commitEdit draft p s).stores.jsonStr =
          (commitEdit draft p s).stores.fileContents ∧
        ∃ v, parse (commitEdit draft p s).stores.fileContents = some v ∧
          (commitEdit draft p s).stores.graph = .value v) ∧
    commitEdit "31" [Seg.key "user", Seg.key "age"]
        { fileContents := "x", fileHasChanges := false,
          jsonStr := docAlice, graph := .value .null } =
      { stores := { fileContents := prettyAlice31, fileHasChanges := true,
                    jsonStr := prettyAlice31,
                    graph := .value (JValue.obj [("user", JValue.obj
                      [("name", JValue.str "Alice"), ("age", JValue.num 31)])]) },
        writes := 3, alerted := false } := by
  constructor
  · intro s draft p d hd hdr hp
    have hdw : wfS d = true := (parse_wf s.jsonStr d hd).1
    have hold : wfS (readValueAtPath s.jsonStr p) = true := by
      simp only [readValueAtPath, hd]
      exact walk_wf p d hdw
    obtain ⟨hcw, hcu⟩ := coerce_wf draft hdr
    obtain ⟨hmw, hmu⟩ :=
      merge_wf (readValueAtPath s.jsonStr p) (coerceInputValue draft) hold hcw hcu
    obtain ⟨w, hw⟩ := write_parses s.jsonStr d p
      (mergePolicy (readValueAtPath s.jsonStr p) (coerceInputValue draft))
      hd hmw hmu hp
    refine ⟨rfl, rfl, w, ?_, ?_⟩
    · exact hw
    · show (match parse (writeJsonAtPath s.jsonStr p
          (mergePolicy (readValueAtPath s.jsonStr p) (coerceInputValue draft))) with
        | some v => GraphInput.value v
        | none => GraphInput.raw (writeJsonAtPath s.jsonStr p
            (mergePolicy (readValueAtPath s.jsonStr p) (coerceInputValue draft)))) =
        GraphInput.value w
      rw [hw]
  · decide

/-- Witness for C5: the end-to-end scenario discharges every hypothesis,
and the three stores reflect the committed value. -/
theorem C5_sync_witness :
    (parse docAlice = some (JValue.obj [("user", JValue.obj
        [("name", JValue.str "Alice"), ("age", JValue.num 30)])]) ∧
      wfStr "31" = true ∧
      (([Seg.key "user", Seg.key "age"] : List Seg).all fun seg =>
        wfStr seg.pkey) = true) ∧
    ((commitEdit "31" [Seg.key "user", Seg.key "age"]
        { fileContents := "x", fileHasChanges := false,
          jsonStr := docAlice, graph := .value .null }).alerted = false ∧
      (commitEdit "31" [Seg.key "user", Seg.key "age"]
        { fileContents := "x", fileHasChanges := false,
          jsonStr := docAlice, graph := .value .null }).stores.jsonStr =
        (commitEdit "31" [Seg.key "user", Seg.key "age"]
        { fileContents := "x", fileHasChanges := false,
          jsonStr := docAlice, graph := .value .null }).stores.fileContents ∧
      ∃ v, parse (commitEdit "31" [Seg.key "user", Seg.key "age"]
        { fileContents := "x", fileHasChanges := false,
          jsonStr := docAlice, graph := .value .null }).stores.fileContents = some v ∧
        (commitEdit "31" [Seg.key "user", Seg.key "age"]
        { fileContents := "x", fileHasChanges := false,
          jsonStr := docAlice, graph := .value .null }).stores.graph = .value v) :=
  ⟨⟨by decide, by decide, by decide⟩,
    C5_sync.1
      { fileContents := "x", fileHasChanges := false,
        jsonStr := docAlice, graph := .value .null }
      "31" [Seg.key "user", Seg.key "age"]
      (JValue.obj [("user", JValue.obj
        [("name", JValue.str "Alice"), ("age", JValue.num 30)])])
      (by decide) (by decide) (by decide)⟩

end JCrack
